import Mathlib

/-!
# Verification of the vitarit distributed cache core

Shallow embedding of the repository's consistent-hash ring (`hashRing.go`),
the distributed-cache membership layer (`distributedCache.go`), the
heartbeat receive/monitor loops (peer discovery file) and the dispatcher's
SET/REMOVE paths, together with proofs of the specification claims.

Conventions of the embedding:
* Go `uint32` values are `Nat`s; every CRC step keeps results below `2^32`
  because shifting right and xor-ing with a 32-bit constant cannot grow.
* Go strings are Lean `String`s; `[]byte(s)` is `strBytes s` (the repository
  only ever hashes ASCII identifiers, for which UTF-8 bytes coincide with
  code points).
* Go maps are association lists with unique keys; `map[k] = v` is `aupdate`,
  `delete(map, k)` removes the key, a read is `alookup` (`none` models Go's
  zero value / nil pointer for a missing key).
* A Go panic from indexing an empty slice is modelled by an `Option` result
  being `none` at the corresponding access.
* Wall-clock instants and durations are nanosecond counts (`Nat`), matching
  `time.Time`/`time.Duration`; `now.Sub(last) > d` is `last + d < now`.
-/

/-- One bit-step of the reflected CRC-32 division: shift right, conditionally
xor the reversed IEEE polynomial 0xEDB88320 (what Go's
`crc32.ChecksumIEEE` computes through its lookup table). -/
def crc32Step (crc : Nat) : Nat :=
  if crc % 2 = 1 then (crc / 2) ^^^ 0xEDB88320 else crc / 2

/-- Iterate the CRC bit-step. -/
def crcBits : Nat → Nat → Nat
  | 0, crc => crc
  | n + 1, crc => crcBits n (crc32Step crc)

/-- Process a byte stream into the running CRC register. -/
def crc32Aux : List Nat → Nat → Nat
  | [], crc => crc
  | b :: bs, crc => crc32Aux bs (crcBits 8 (crc ^^^ b % 256))

/-- `crc32 bytes` is Go's `crc32.ChecksumIEEE(bytes)`: register preset to
all-ones, bitwise reflected division, final complement. -/
def crc32 (bytes : List Nat) : Nat :=
  crc32Aux bytes 0xFFFFFFFF ^^^ 0xFFFFFFFF

/-- UTF-8 bytes of an ASCII string (`[]byte(s)` in Go); all identifiers the
repository hashes are ASCII, where bytes and code points coincide. -/
def strBytes (s : String) : List Nat :=
  s.data.map Char.toNat

/-- `nodeInfo` from `cacheNode.go`: identity of a peer. -/
structure nodeInfo where
  ID : String
  IP : String
  Port : String
  GroupID : String
deriving DecidableEq

/-- Association-list read, Go map indexing: the value at the key, `none`
when absent (Go's zero value / nil pointer). -/
def alookup {κ β : Type} [BEq κ] (m : List (κ × β)) (k : κ) : Option β :=
  (m.find? (fun p => p.1 == k)).map Prod.snd

/-- Go map assignment `m[k] = v`: replace the value in place when the key is
present, append a fresh entry otherwise. -/
def aupdate {κ β : Type} [BEq κ] (m : List (κ × β)) (k : κ) (v : β) :
    List (κ × β) :=
  if (alookup m k).isSome then
    m.map (fun p => if p.1 == k then (k, v) else p)
  else m ++ [(k, v)]

/-- `hashRing` from `hashRing.go` (the mutex carries no state; `nodes`
keeps the `nodeInfo` payload of each `*cacheNode`). -/
structure hashRing where
  nodes : List nodeInfo
  sortedHashes : List Nat
  nodeMap : List (Nat × nodeInfo)
deriving DecidableEq

/-- `NewHashRing`: the empty ring. -/
def NewHashRing : hashRing :=
  { nodes := [], sortedHashes := [], nodeMap := [] }

/-- `sort.Search`'s loop from the Go standard library: binary search for
the least index where `f` holds, `f` assumed monotone by the caller.  The
loop shrinks `j - i` on every iteration, so a fuel of the initial width
over-suffices; fuel keeps the recursion structural. -/
def goSearchLoop (f : Nat → Bool) : Nat → Nat → Nat → Nat
  | 0, i, _ => i
  | fuel + 1, i, j =>
    if i < j then
      if f ((i + j) / 2) then goSearchLoop f fuel i ((i + j) / 2)
      else goSearchLoop f fuel ((i + j) / 2 + 1) j
    else i

/-- `sort.Search(n, f)`. -/
def sortSearch (n : Nat) (f : Nat → Bool) : Nat :=
  goSearchLoop f n 0 n

/-- The index both `getNode` and `getNodes` start from: the binary-search
result for the first ring hash at least `hash`, wrapped to 0 when the
search ran past the end. -/
def ringIdx (sortedHashes : List Nat) (hash : Nat) : Nat :=
  let idx0 := sortSearch sortedHashes.length
    (fun i => decide (hash ≤ sortedHashes.getD i 0))
  if idx0 = sortedHashes.length then 0 else idx0

/-- `hashRing.addNode`: no-op when the ID's hash is already a key of
`nodeMap` (a heartbeat from a known node), otherwise append the node and
its hash and re-sort the hash slice ascending (`sort.Slice` with `<`; on a
duplicate-free slice every comparison sort yields the same strictly
ascending sequence, embedded as insertion sort). -/
def hashRing.addNode (r : hashRing) (node : nodeInfo) : hashRing :=
  let hash := crc32 (strBytes node.ID)
  if (alookup r.nodeMap hash).isSome then r
  else
    { nodes := r.nodes ++ [node]
      sortedHashes := List.insertionSort (· ≤ ·) (r.sortedHashes ++ [hash])
      nodeMap := r.nodeMap ++ [(hash, node)] }

/-- `hashRing.removeNode`: no-op when the ID's hash is absent; otherwise
delete the hash from `nodeMap`, the first occurrence of the hash from
`sortedHashes`, and the first node with this ID from `nodes`. -/
def hashRing.removeNode (r : hashRing) (nodeID : String) : hashRing :=
  let hash := crc32 (strBytes nodeID)
  if (alookup r.nodeMap hash).isSome then
    { nodes := r.nodes.eraseP (fun nd => nd.ID == nodeID)
      sortedHashes := r.sortedHashes.erase hash
      nodeMap := r.nodeMap.filter (fun p => !(p.1 == hash)) }
  else r

/-- `hashRing.getNode`: binary-search `sortedHashes` for the first hash at
least the key's hash, wrap to index 0 when past the end, and read the node
off `nodeMap`.  `none` is the empty-ring out-of-bounds slice access (a Go
panic) or a `nodeMap` miss (a Go nil pointer); neither occurs on a
well-formed non-empty ring. -/
def hashRing.getNode (r : hashRing) (key : String) : Option nodeInfo :=
  let hash := crc32 (strBytes key)
  let idx0 := sortSearch r.sortedHashes.length
    (fun i => decide (hash ≤ r.sortedHashes.getD i 0))
  let idx := if idx0 = r.sortedHashes.length then 0 else idx0
  match r.sortedHashes.get? idx with
  | none => none
  | some h => alookup r.nodeMap h

/-- The clockwise collection loop of `hashRing.getNodes`: advance the index
with wrap-around, stop on running out of `redundancy` or on returning to
the primary index, appending each visited node (`none` entries model Go's
nil pointer for a `nodeMap` miss, impossible on a well-formed ring). -/
def hashRing.getNodesLoop (r : hashRing) (masterIdx : Nat) :
    Nat → Nat → List (Option nodeInfo) → List (Option nodeInfo)
  | _idx, 0, nodes => nodes
  | idx, red + 1, nodes =>
    let idx' := if r.sortedHashes.length ≤ idx + 1 then 0 else idx + 1
    if idx' = masterIdx then nodes
    else
      hashRing.getNodesLoop r masterIdx idx' red
        (nodes ++ [alookup r.nodeMap (r.sortedHashes.getD idx' 0)])

/-- `hashRing.getNodes`: the primary by the same search as `getNode`,
followed by the clockwise walk.  The outer `none` is the empty-ring
out-of-bounds access (a Go panic). -/
def hashRing.getNodes (r : hashRing) (key : String) (redundancy : Nat) :
    Option (List (Option nodeInfo)) :=
  let hash := crc32 (strBytes key)
  let idx0 := sortSearch r.sortedHashes.length
    (fun i => decide (hash ≤ r.sortedHashes.getD i 0))
  let idx := if idx0 = r.sortedHashes.length then 0 else idx0
  match r.sortedHashes.get? idx with
  | none => none
  | some h =>
    some (hashRing.getNodesLoop r idx idx redundancy [alookup r.nodeMap h])

/-- `distributedCache` from `distributedCache.go`: the embedded ring, the
redundancy factor and the `nodeID → last heartbeat` map (instants in
nanoseconds). -/
structure distributedCache where
  ring : hashRing
  redundancy : Nat
  nodeHB : List (String × Nat)
deriving DecidableEq

/-- A fresh cache as built by `newDistributedCache`. -/
def newDistributedCache (redundancy : Nat) : distributedCache :=
  { ring := NewHashRing, redundancy := redundancy, nodeHB := [] }

/-- `distributedCache.addNode` at instant `now`: put the node in the ring
only when its ID is new to `nodeHB`, then unconditionally stamp
`nodeHB[node.ID] = now`. -/
def distributedCache.addNode (c : distributedCache) (node : nodeInfo)
    (now : Nat) : distributedCache :=
  let ring' := if (alookup c.nodeHB node.ID).isSome then c.ring
    else c.ring.addNode node
  { c with ring := ring', nodeHB := aupdate c.nodeHB node.ID now }

/-- `distributedCache.removeNode_unlocked`: drop the heartbeat entry and
remove the node from the ring. -/
def distributedCache.removeNode_unlocked (c : distributedCache)
    (nodeID : String) : distributedCache :=
  { c with nodeHB := c.nodeHB.filter (fun p => !(p.1 == nodeID))
           ring := c.ring.removeNode nodeID }

/-- One iteration of `receiveHeartbeats` on a successfully parsed datagram:
discard one's own heartbeat by ID, then the group test exactly as written
in the source — `if node.GroupID == myGroupID { continue }` — so a
heartbeat is dropped when its group EQUALS the local group and admitted
(via `cache.addNode`) when it differs. -/
def distributedCache.receiveHeartbeat (c : distributedCache)
    (myNodeID myGroupID : String) (node : nodeInfo) (now : Nat) :
    distributedCache :=
  if node.ID == myNodeID then c
  else if node.GroupID == myGroupID then c
  else c.addNode node now

/-- `monitorInterval` is 10 seconds, in nanoseconds. -/
def monitorInterval : Nat := 10 * 1000000000

/-- The body of the monitor loop for one `nodeHB` entry: when the entry
names another node and its heartbeat is older than the monitor interval
(`now.Sub(lastSeen) > monitorInterval`, i.e.
`lastSeen + monitorInterval < now`), call `removeNode_unlocked`. -/
def sweepStep (myNodeID : String) (now : Nat) (acc : distributedCache)
    (p : String × Nat) : distributedCache :=
  if p.1 ≠ myNodeID ∧ p.2 + monitorInterval < now then
    acc.removeNode_unlocked p.1
  else acc

/-- One tick of `monitorHeartbeats` at instant `now`: run the expiry check
over every entry of `nodeHB` (Go ranges over a map snapshot; entries are
keyed uniquely, so list order is an unspecified but harmless choice). -/
def distributedCache.monitorSweep (c : distributedCache) (myNodeID : String)
    (now : Nat) : distributedCache :=
  c.nodeHB.foldl (sweepStep myNodeID now) c

/-- A membership operation on the hash ring. -/
inductive RingOp where
  | add : nodeInfo → RingOp
  | remove : String → RingOp

/-- Apply one ring operation. -/
def applyRingOp (r : hashRing) : RingOp → hashRing
  | RingOp.add nd => r.addNode nd
  | RingOp.remove id => r.removeNode id

/-- Apply a sequence of ring operations in order. -/
def applyRingOps (ops : List RingOp) (r : hashRing) : hashRing :=
  ops.foldl applyRingOp r

/-- A membership operation on the distributed cache (an observed heartbeat
with its arrival instant, or an expiry removal). -/
inductive CacheOp where
  | add : nodeInfo → Nat → CacheOp
  | remove : String → CacheOp

/-- The peer ID an operation mentions. -/
def CacheOp.opID : CacheOp → String
  | CacheOp.add nd _ => nd.ID
  | CacheOp.remove id => id

/-- Apply one cache operation. -/
def applyCacheOp (c : distributedCache) : CacheOp → distributedCache
  | CacheOp.add nd now => c.addNode nd now
  | CacheOp.remove id => c.removeNode_unlocked id

/-- Apply a sequence of cache operations in order. -/
def applyCacheOps (ops : List CacheOp) (c : distributedCache) :
    distributedCache :=
  ops.foldl applyCacheOp c

/-- No two IDs of the list collide under CRC-32. -/
abbrev goodIDs (l : List String) : Prop :=
  ∀ a ∈ l, ∀ b ∈ l, crc32 (strBytes a) = crc32 (strBytes b) → a = b

/-- The outcome of one `client.Post` in `setToNode`: either a transport
error (`err != nil`) or a delivered response carrying an HTTP status
code.  `client.Post` returns a nil error for any delivered response,
whatever its code. -/
inductive SetResp where
  | transportErr : SetResp
  | ok : Nat → SetResp
deriving DecidableEq

/-- `setToNode`: posts the value and returns success iff the post produced
no transport error; the response status code is not inspected. -/
def setToNode (resp : nodeInfo → Int → SetResp) (nd : nodeInfo)
    (copy : Int) : Bool :=
  match resp nd copy with
  | SetResp.transportErr => false
  | SetResp.ok _ => true

/-- The replica loop of `distributedCache.set`, started at range index
`idx`: attempt each node with replica-rank `idx − 1`, stop at the first
attempt whose `setToNode` succeeds.  Returns the list of attempts made
(node and rank passed) and whether the final `err` is nil — `err` starts
nil, is overwritten by every attempt, and the loop breaks on the first
nil result. -/
def setLoop (resp : nodeInfo → Int → SetResp) :
    List nodeInfo → Nat → List (nodeInfo × Int) × Bool
  | [], _ => ([], true)
  | [nd], idx =>
    if setToNode resp nd ((idx : Int) - 1) then
      ([(nd, (idx : Int) - 1)], true)
    else ([(nd, (idx : Int) - 1)], false)
  | nd :: r1 :: rs, idx =>
    if setToNode resp nd ((idx : Int) - 1) then
      ([(nd, (idx : Int) - 1)], true)
    else
      ((nd, (idx : Int) - 1) :: (setLoop resp (r1 :: rs) (idx + 1)).1,
        (setLoop resp (r1 :: rs) (idx + 1)).2)

/-- `distributedCache.set`: fetch the replica list for the key and run the
attempt loop over it (well-formed rings yield no nil entries, unwrapped
here by `filterMap`); `none` is the empty-ring panic inside `getNodes`. -/
def distributedCache.set (c : distributedCache)
    (resp : nodeInfo → Int → SetResp) (key : String) :
    Option (List (nodeInfo × Int) × Bool) :=
  match c.ring.getNodes key c.redundancy with
  | none => none
  | some l => some (setLoop resp (l.filterMap id) 0)

/-- Per-key record stored by a peer (`cacheData` in `cacheNode.go`). -/
structure cacheData where
  bytes : List Nat
  copy : Int
  crc : Nat
deriving DecidableEq

/-- `cacheNode.remove`: delete the key from the peer's store (the
endpoint's DELETE handler calls this). -/
def cacheNode.remove (data : List (String × cacheData)) (key : String) :
    List (String × cacheData) :=
  data.filter (fun p => !(p.1 == key))

/-- `distributedCache.remove` composed with the target peer's DELETE
handling: resolve the primary via `getNode` and delete the key from that
peer's store only.  `stores` maps peer ID to that peer's store; `none` is
the empty-ring panic inside `getNode`. -/
def distributedCache.remove (c : distributedCache)
    (stores : List (String × List (String × cacheData))) (key : String) :
    Option (List (String × List (String × cacheData))) :=
  match c.ring.getNode key with
  | none => none
  | some nd =>
    some (stores.map
      (fun s => if s.1 == nd.ID then (s.1, cacheNode.remove s.2 key) else s))

/-- Membership bookkeeping of the ring that holds after any operation
sequence, collisions included: `sortedHashes` strictly ascending, map keys
duplicate-free, and the hashes listed are exactly the map keys. -/
abbrev ringCore (r : hashRing) : Prop :=
  List.Sorted (· < ·) r.sortedHashes ∧
  (r.nodeMap.map Prod.fst).Nodup ∧
  (∀ h ∈ r.sortedHashes, h ∈ r.nodeMap.map Prod.fst) ∧
  (∀ h ∈ r.nodeMap.map Prod.fst, h ∈ r.sortedHashes)

/-- Full well-formedness of the ring: the core bookkeeping, every map entry
keyed by the CRC-32 of its node's ID, and `nodes` carrying exactly the map
entries in order. -/
abbrev ringWF (r : hashRing) : Prop :=
  ringCore r ∧
  (∀ p ∈ r.nodeMap, crc32 (strBytes p.2.ID) = p.1) ∧
  r.nodes = r.nodeMap.map Prod.snd

/-- IDs of the peers currently stored in the ring. -/
def memberIDs (c : distributedCache) : List String :=
  c.ring.nodes.map nodeInfo.ID

/-- Well-formedness of the whole cache: a well-formed ring, duplicate-free
registry keys, registry keys and ring members naming the same peers, and
no CRC-32 collision among the registered IDs. -/
abbrev cacheWF (c : distributedCache) : Prop :=
  ringWF c.ring ∧
  (c.nodeHB.map Prod.fst).Nodup ∧
  (∀ p ∈ c.nodeHB, p.1 ∈ memberIDs c) ∧
  (∀ nd ∈ c.ring.nodes, nd.ID ∈ c.nodeHB.map Prod.fst) ∧
  (∀ a ∈ c.nodeHB.map Prod.fst, ∀ b ∈ c.nodeHB.map Prod.fst,
    crc32 (strBytes a) = crc32 (strBytes b) → a = b)

/-- A peer used to evaluate theorems on closed inputs. -/
def nodeA : nodeInfo := ⟨"node1", "127.0.0.1", "8081", "A"⟩

/-- A second peer of the same group. -/
def nodeB : nodeInfo := ⟨"node2", "127.0.0.1", "8082", "A"⟩

/-- A peer of a different group. -/
def nodeX : nodeInfo := ⟨"node3", "127.0.0.1", "8091", "B"⟩

/-- A peer whose ID collides with `nodeBuck`'s under CRC-32. -/
def nodePlum : nodeInfo := ⟨"plumless", "10.0.0.1", "9001", "A"⟩

/-- A peer whose ID collides with `nodePlum`'s under CRC-32 (both IDs hash
to 0x4DDB0C25). -/
def nodeBuck : nodeInfo := ⟨"buckeroo", "10.0.0.2", "9002", "A"⟩

/-- A two-node ring built through the source's constructor and `addNode`. -/
def ringAB : hashRing := (NewHashRing.addNode nodeA).addNode nodeB

/-- A cache holding `nodeA` (the local node) and `nodeB`. -/
def cacheAB : distributedCache :=
  ((newDistributedCache 1).addNode nodeA 100).addNode nodeB 200

/-- A cache holding only the local node. -/
def cacheSelf : distributedCache :=
  (newDistributedCache 1).addNode nodeA 100

/-- The cache after observing `nodePlum` and then the CRC-32-colliding
`nodeBuck`. -/
def cacheCollide : distributedCache :=
  ((newDistributedCache 1).addNode nodePlum 100).addNode nodeBuck 200

/-- Responses in which the primary delivers HTTP 500 with no transport
error and the second replica would deliver 200. -/
def respCode500 : nodeInfo → Int → SetResp :=
  fun nd _ => if nd.ID == "node1" then SetResp.ok 500 else SetResp.ok 200

/-- Responses in which the primary is unreachable and the second replica
delivers 200. -/
def respFirstDown : nodeInfo → Int → SetResp :=
  fun nd _ =>
    if nd.ID == "node1" then SetResp.transportErr else SetResp.ok 200

/-- Per-peer stores holding `key1` on both peers. -/
def storesAB : List (String × List (String × cacheData)) :=
  [("node1", [("key1", ⟨[1, 2], 0, 0⟩)]),
   ("node2", [("key1", ⟨[1, 2], 1, 0⟩)])]

section AssocLemmas

set_option linter.unusedSectionVars false

variable {κ β : Type} [BEq κ] [LawfulBEq κ]

theorem alookup_nil (k : κ) : alookup ([] : List (κ × β)) k = none := rfl

theorem alookup_cons (p : κ × β) (m : List (κ × β)) (k : κ) :
    alookup (p :: m) k = if p.1 == k then some p.2 else alookup m k := by
  cases h : (p.1 == k) <;> simp [alookup, List.find?, h]

theorem alookup_isSome_iff (m : List (κ × β)) (k : κ) :
    (alookup m k).isSome ↔ k ∈ m.map Prod.fst := by
  induction m with
  | nil => simp [alookup_nil]
  | cons p m ih =>
    rw [alookup_cons]
    cases h : (p.1 == k)
    · have hne : ¬ p.1 = k := by simpa using h
      simp only [Bool.false_eq_true, if_false, List.map_cons, List.mem_cons]
      rw [ih]
      constructor
      · exact fun hk => Or.inr hk
      · rintro (hk | hk)
        · exact absurd hk.symm hne
        · exact hk
    · have heq : p.1 = k := by simpa using h
      simp [h, heq]

theorem alookup_eq_none_iff (m : List (κ × β)) (k : κ) :
    alookup m k = none ↔ k ∉ m.map Prod.fst := by
  rw [← alookup_isSome_iff, Option.not_isSome_iff_eq_none]

theorem alookup_mem {m : List (κ × β)} {k : κ} {v : β}
    (h : alookup m k = some v) : (k, v) ∈ m := by
  induction m with
  | nil => simp [alookup_nil] at h
  | cons p m ih =>
    rw [alookup_cons] at h
    cases hp : (p.1 == k)
    · rw [hp] at h
      simp only [Bool.false_eq_true, if_false] at h
      exact List.mem_cons_of_mem _ (ih h)
    · rw [hp] at h
      simp only [if_true] at h
      have heq : p.1 = k := by simpa using hp
      obtain rfl : p.2 = v := by injection h
      obtain ⟨p1, p2⟩ := p
      simp_all

theorem alookup_filter_ne {q k : κ} (m : List (κ × β)) (h : ¬ q = k) :
    alookup (m.filter (fun p => !(p.1 == q))) k = alookup m k := by
  induction m with
  | nil => simp [alookup_nil]
  | cons p m ih =>
    cases hp : (p.1 == q)
    · simp only [List.filter_cons, hp, Bool.not_false, if_true]
      rw [alookup_cons, alookup_cons, ih]
    · have heq : p.1 = q := by simpa using hp
      have hk : (p.1 == k) = false := by
        simp only [beq_eq_false_iff_ne, ne_eq, heq]
        exact h
      simp only [List.filter_cons, hp, Bool.not_true, Bool.false_eq_true,
        if_false]
      rw [alookup_cons, hk, ih]
      simp

theorem alookup_filter_self (m : List (κ × β)) (k : κ) :
    alookup (m.filter (fun p => !(p.1 == k))) k = none := by
  rw [alookup_eq_none_iff]
  intro hmem
  obtain ⟨p, hp, rfl⟩ := List.mem_map.mp hmem
  have := (List.mem_filter.mp hp).2
  simp at this

theorem keys_aupdate_present (m : List (κ × β)) (k : κ) (v : β)
    (h : (alookup m k).isSome) :
    (aupdate m k v).map Prod.fst = m.map Prod.fst := by
  rw [aupdate, if_pos h, List.map_map]
  refine List.map_congr_left (fun p _ => ?_)
  cases hp : (p.1 == k)
  · simp [hp]
  · have heq : p.1 = k := by simpa using hp
    simp [hp, heq]

theorem keys_aupdate_absent (m : List (κ × β)) (k : κ) (v : β)
    (h : ¬ (alookup m k).isSome) :
    (aupdate m k v).map Prod.fst = m.map Prod.fst ++ [k] := by
  rw [aupdate, if_neg h]
  simp

theorem alookup_map_update (m : List (κ × β)) (k : κ) (v : β) :
    alookup (m.map (fun p => if p.1 == k then (k, v) else p)) k =
      if (alookup m k).isSome then some v else none := by
  induction m with
  | nil => simp [alookup_nil, alookup]
  | cons p m ih =>
    cases hp : (p.1 == k)
    · simp only [List.map_cons, hp, Bool.false_eq_true, if_false]
      rw [alookup_cons, hp, alookup_cons, hp]
      simpa using ih
    · simp only [List.map_cons, hp, if_true]
      rw [alookup_cons]
      simp only [show ((k, v) : κ × β).1 = k from rfl, beq_self_eq_true,
        if_true]
      rw [alookup_cons, hp]
      simp

theorem alookup_aupdate_self (m : List (κ × β)) (k : κ) (v : β) :
    alookup (aupdate m k v) k = some v := by
  rw [aupdate]
  by_cases h : (alookup m k).isSome
  · rw [if_pos h, alookup_map_update, if_pos h]
  · rw [if_neg h]
    rw [Option.not_isSome_iff_eq_none, alookup_eq_none_iff] at h
    induction m with
    | nil =>
      rw [List.nil_append, alookup_cons]
      simp
    | cons p m ih =>
      rw [List.cons_append, alookup_cons]
      have hp : (p.1 == k) = false := by
        simp only [beq_eq_false_iff_ne, ne_eq]
        intro he
        exact h (by simp [he])
      rw [hp]
      simp only [Bool.false_eq_true, if_false]
      exact ih (fun hm => h (by simp at hm ⊢; exact Or.inr hm))

theorem alookup_map_update_ne (m : List (κ × β)) {k q : κ} (v : β)
    (h : ¬ q = k) :
    alookup (m.map (fun p => if p.1 == k then (k, v) else p)) q =
      alookup m q := by
  induction m with
  | nil => simp [alookup]
  | cons p m ih =>
    cases hp : (p.1 == k)
    · simp only [List.map_cons, hp, Bool.false_eq_true, if_false]
      rw [alookup_cons, alookup_cons, ih]
    · have heq : p.1 = k := by simpa using hp
      have hq : (p.1 == q) = false := by
        simp only [beq_eq_false_iff_ne, ne_eq, heq]
        exact fun he => h he.symm
      have hq' : (k == q) = false := by
        simp only [beq_eq_false_iff_ne, ne_eq]
        exact fun he => h he.symm
      simp only [List.map_cons, hp, if_true]
      rw [alookup_cons, alookup_cons, hq]
      simp only [show ((k, v) : κ × β).1 = k from rfl, hq',
        Bool.false_eq_true, if_false]
      exact ih

theorem alookup_aupdate_ne (m : List (κ × β)) {k q : κ} (v : β)
    (h : ¬ q = k) : alookup (aupdate m k v) q = alookup m q := by
  rw [aupdate]
  by_cases hs : (alookup m k).isSome
  · rw [if_pos hs, alookup_map_update_ne m v h]
  · rw [if_neg hs]
    clear hs
    induction m with
    | nil =>
      rw [List.nil_append, alookup_cons]
      have hkq : (((k, v) : κ × β).1 == q) = false := by
        simp only [beq_eq_false_iff_ne, ne_eq]
        exact fun he => h he.symm
      rw [hkq]
      simp [alookup_nil]
    | cons p m ih =>
      rw [List.cons_append, alookup_cons, alookup_cons]
      cases hq : (p.1 == q)
      · simp only [Bool.false_eq_true, if_false]
        exact ih
      · simp

end AssocLemmas

section SearchLemmas

theorem getD_eq_get (l : List Nat) (i : Nat) (h : i < l.length) :
    l.getD i 0 = l.get ⟨i, h⟩ := by
  simp [List.getD_eq_getElem?_getD, List.getElem?_eq_getElem h,
    List.get_eq_getElem]

theorem get?_eq_get_of_lt (l : List Nat) (i : Nat) (h : i < l.length) :
    l.get? i = some (l.get ⟨i, h⟩) := by
  simp [List.get?_eq_getElem?, List.getElem?_eq_getElem h,
    List.get_eq_getElem]

theorem sorted_getD_le (l : List Nat)
    (hs : List.Sorted (· < ·) l) {i j : Nat} (hij : i ≤ j)
    (hj : j < l.length) : l.getD i 0 ≤ l.getD j 0 := by
  have hi : i < l.length := lt_of_le_of_lt hij hj
  rw [getD_eq_get l i hi, getD_eq_get l j hj]
  rcases Nat.lt_or_ge i j with hlt | hge
  · exact le_of_lt (List.Sorted.rel_get_of_lt hs (by exact hlt))
  · have : i = j := le_antisymm hij hge
    subst this
    exact le_refl _

/-- Correctness of `sort.Search`'s loop: with a predicate monotone below
`n`, searching `[i, j)` with enough fuel and the stated boundary facts
locates the least index where the predicate turns true. -/
theorem goSearchLoop_spec (f : Nat → Bool) (n : Nat)
    (mono : ∀ k1 k2, k1 ≤ k2 → k2 < n → f k1 = true → f k2 = true) :
    ∀ d i j, j - i ≤ d → i ≤ j → j ≤ n →
      (∀ k, k < i → f k = false) → (∀ k, j ≤ k → k < n → f k = true) →
      i ≤ goSearchLoop f d i j ∧ goSearchLoop f d i j ≤ j ∧
      (∀ k, k < goSearchLoop f d i j → f k = false) ∧
      (∀ k, goSearchLoop f d i j ≤ k → k < n → f k = true) := by
  intro d
  induction d with
  | zero =>
    intro i j hd hij hjn hlow hhigh
    have hij' : i = j := by omega
    subst hij'
    exact ⟨le_refl i, le_refl i, hlow, hhigh⟩
  | succ d ih =>
    intro i j hd hij hjn hlow hhigh
    rw [goSearchLoop]
    by_cases hlt : i < j
    · rw [if_pos hlt]
      cases hf : f ((i + j) / 2)
      · simp only [Bool.false_eq_true, if_false]
        have hrec := ih ((i + j) / 2 + 1) j (by omega) (by omega) hjn
          (fun k hk => by
            rcases Nat.lt_or_ge k i with hki | hki
            · exact hlow k hki
            · rcases Nat.lt_or_ge k ((i + j) / 2 + 1) with hkm | hkm
              · cases hfk : f k
                · rfl
                · have := mono k ((i + j) / 2) (by omega) (by omega) hfk
                  rw [this] at hf
                  exact absurd hf (by simp)
              · exact absurd hk (by omega))
          hhigh
        exact ⟨by omega, hrec.2.1, hrec.2.2.1, hrec.2.2.2⟩
      · simp only [if_true]
        have hrec := ih i ((i + j) / 2) (by omega) (by omega) (by omega)
          hlow
          (fun k hk1 hk2 => mono ((i + j) / 2) k hk1 hk2 hf)
        exact ⟨hrec.1, by omega, hrec.2.2.1, hrec.2.2.2⟩
    · rw [if_neg hlt]
      have hij' : i = j := by omega
      exact ⟨le_refl i, by omega, hlow, fun k hk1 hk2 =>
        hhigh k (by omega) hk2⟩

/-- Correctness of `sort.Search(n, f)` for a monotone predicate. -/
theorem sortSearch_spec (n : Nat) (f : Nat → Bool)
    (mono : ∀ k1 k2, k1 ≤ k2 → k2 < n → f k1 = true → f k2 = true) :
    sortSearch n f ≤ n ∧
    (∀ k, k < sortSearch n f → f k = false) ∧
    (∀ k, sortSearch n f ≤ k → k < n → f k = true) := by
  have h := goSearchLoop_spec f n mono n 0 n (by omega) (by omega)
    (le_refl n) (fun k hk => absurd hk (Nat.not_lt_zero k))
    (fun k hk1 hk2 => absurd hk1 (by omega))
  exact ⟨h.2.1, h.2.2.1, h.2.2.2⟩

end SearchLemmas

section RingLemmas

theorem keys_filter_ne (m : List (Nat × nodeInfo)) (hash : Nat) :
    (m.filter (fun p => !(p.1 == hash))).map Prod.fst =
      (m.map Prod.fst).filter (fun q => !(q == hash)) := by
  induction m with
  | nil => simp
  | cons p m ih =>
    cases hp : (p.1 == hash) <;>
      simp [List.filter_cons, hp, ih]

theorem ringCore_addNode (r : hashRing) (h : ringCore r) (nd : nodeInfo) :
    ringCore (r.addNode nd) := by
  obtain ⟨hsort, hnodup, h1, h2⟩ := h
  rw [hashRing.addNode]
  by_cases hp : (alookup r.nodeMap (crc32 (strBytes nd.ID))).isSome
  · rw [if_pos hp]
    exact ⟨hsort, hnodup, h1, h2⟩
  · rw [if_neg hp]
    have hnotk : crc32 (strBytes nd.ID) ∉ r.nodeMap.map Prod.fst := by
      rw [← alookup_isSome_iff]
      exact hp
    have hnotsh : crc32 (strBytes nd.ID) ∉ r.sortedHashes :=
      fun hmem => hnotk (h1 _ hmem)
    have hperm := List.perm_insertionSort (· ≤ ·)
      (r.sortedHashes ++ [crc32 (strBytes nd.ID)])
    have happnd : (r.sortedHashes ++ [crc32 (strBytes nd.ID)]).Nodup := by
      rw [List.nodup_append]
      exact ⟨hsort.nodup, List.nodup_singleton _,
        fun a ha hb => by simp at hb; subst hb; exact hnotsh ha⟩
    constructor
    · exact List.Sorted.lt_of_le
        (List.sorted_insertionSort (· ≤ ·) _)
        (hperm.nodup_iff.mpr happnd)
    refine ⟨?_, ?_, ?_⟩
    · simp only [List.map_append, List.map_cons, List.map_nil]
      rw [List.nodup_append]
      exact ⟨hnodup, List.nodup_singleton _,
        fun a ha hb => by simp at hb; subst hb; exact hnotk ha⟩
    · intro x hx
      have := hperm.mem_iff.mp hx
      simp only [List.mem_append, List.mem_singleton] at this
      rcases this with hx' | hx'
      · simp only [List.map_append, List.map_cons, List.map_nil,
          List.mem_append]
        exact Or.inl (h1 _ hx')
      · simp [hx']
    · intro x hx
      simp only [List.map_append, List.map_cons, List.map_nil,
        List.mem_append, List.mem_singleton] at hx
      rw [hperm.mem_iff]
      simp only [List.mem_append, List.mem_singleton]
      rcases hx with hx' | hx'
      · exact Or.inl (h2 _ hx')
      · exact Or.inr hx'

theorem ringCore_removeNode (r : hashRing) (h : ringCore r) (id : String) :
    ringCore (r.removeNode id) := by
  obtain ⟨hsort, hnodup, h1, h2⟩ := h
  rw [hashRing.removeNode]
  by_cases hp : (alookup r.nodeMap (crc32 (strBytes id))).isSome
  · rw [if_pos hp]
    have hshnd : r.sortedHashes.Nodup := hsort.nodup
    constructor
    · exact hsort.sublist (r.sortedHashes.erase_sublist _)
    refine ⟨?_, ?_, ?_⟩
    · rw [keys_filter_ne]
      exact hnodup.sublist (List.filter_sublist _)
    · intro x hx
      have hx' := hshnd.mem_erase_iff.mp hx
      rw [keys_filter_ne, List.mem_filter]
      refine ⟨h1 _ hx'.2, by simp [hx'.1]⟩
    · intro x hx
      rw [keys_filter_ne, List.mem_filter] at hx
      have hne : ¬ x = crc32 (strBytes id) := by simpa using hx.2
      exact hshnd.mem_erase_iff.mpr ⟨hne, h2 _ hx.1⟩
  · rw [if_neg hp]
    exact ⟨hsort, hnodup, h1, h2⟩

theorem ringWF_addNode (r : hashRing) (h : ringWF r) (nd : nodeInfo) :
    ringWF (r.addNode nd) := by
  obtain ⟨hcore, hcrc, halign⟩ := h
  refine ⟨ringCore_addNode r hcore nd, ?_, ?_⟩
  all_goals rw [hashRing.addNode]
  all_goals by_cases hp : (alookup r.nodeMap (crc32 (strBytes nd.ID))).isSome
  · rw [if_pos hp]
    exact hcrc
  · rw [if_neg hp]
    intro p hp'
    simp only [List.mem_append, List.mem_singleton] at hp'
    rcases hp' with hp' | hp'
    · exact hcrc _ hp'
    · subst hp'
      rfl
  · rw [if_pos hp]
    exact halign
  · rw [if_neg hp]
    simp [halign]

theorem memberIDs_nodup {r : hashRing} (h : ringWF r) :
    (r.nodes.map nodeInfo.ID).Nodup := by
  obtain ⟨⟨_, hnodup, _, _⟩, hcrc, halign⟩ := h
  have hkeys : r.nodeMap.map Prod.fst =
      (r.nodes.map nodeInfo.ID).map (fun s => crc32 (strBytes s)) := by
    rw [halign, List.map_map, List.map_map]
    exact List.map_congr_left (fun p hp => (hcrc p hp).symm)
  rw [hkeys] at hnodup
  exact List.Nodup.of_map _ hnodup

end RingLemmas

section RemoveLemmas

/-- Deleting the hash key from `nodeMap` and erasing the first node with
the corresponding ID from `nodes` remove the same entry, provided no
distinct stored ID collides with `id` under CRC-32. -/
theorem filter_key_eraseP (id : String) :
    ∀ m : List (Nat × nodeInfo), (m.map Prod.fst).Nodup →
      (∀ p ∈ m, crc32 (strBytes p.2.ID) = p.1) →
      (∀ p ∈ m, crc32 (strBytes p.2.ID) = crc32 (strBytes id) →
        p.2.ID = id) →
      (m.filter (fun p => !(p.1 == crc32 (strBytes id)))).map Prod.snd =
        (m.map Prod.snd).eraseP (fun nd => nd.ID == id) := by
  intro m
  induction m with
  | nil => simp
  | cons p m ih =>
    intro hnodup hcrc hcol
    have hnodup' : (m.map Prod.fst).Nodup := (List.nodup_cons.mp hnodup).2
    have hcrc' : ∀ q ∈ m, crc32 (strBytes q.2.ID) = q.1 :=
      fun q hq => hcrc q (List.mem_cons_of_mem _ hq)
    have hcol' : ∀ q ∈ m, crc32 (strBytes q.2.ID) = crc32 (strBytes id) →
        q.2.ID = id :=
      fun q hq => hcol q (List.mem_cons_of_mem _ hq)
    cases hp : (p.1 == crc32 (strBytes id))
    · have hne : ¬ p.1 = crc32 (strBytes id) := by simpa using hp
      have hid : ¬ p.2.ID = id := by
        intro he
        exact hne ((hcrc p (List.mem_cons_self _ _)).symm.trans
          (by rw [he]))
      simp only [List.filter_cons, hp, Bool.not_false, if_true,
        List.map_cons, List.eraseP_cons]
      have hid' : (p.2.ID == id) = false := by simpa using hid
      rw [hid']
      simp only [cond_false]
      rw [ih hnodup' hcrc' hcol']
    · have heq : p.1 = crc32 (strBytes id) := by simpa using hp
      have hid : p.2.ID = id :=
        hcol p (List.mem_cons_self _ _)
          ((hcrc p (List.mem_cons_self _ _)).trans heq)
      have hid' : (p.2.ID == id) = true := by simpa using hid
      simp only [List.filter_cons, hp, Bool.not_true, Bool.false_eq_true,
        if_false, List.map_cons, List.eraseP_cons, hid', cond_true]
      have habsent : ∀ q ∈ m, (!(q.1 == crc32 (strBytes id))) = true := by
        intro q hq
        have : ¬ q.1 = p.1 := by
          intro he
          exact (List.nodup_cons.mp hnodup).1
            (he ▸ List.mem_map_of_mem Prod.fst hq)
        simp only [Bool.not_eq_true']
        simp only [beq_eq_false_iff_ne, ne_eq]
        rw [← heq]
        exact fun hc => this hc
      rw [List.filter_eq_self.mpr habsent]

/-- Erasing the first node carrying `id` from a duplicate-free node list
leaves no node carrying `id`. -/
theorem eraseP_id_complete (id : String) :
    ∀ l : List nodeInfo, (l.map nodeInfo.ID).Nodup →
      ∀ nd ∈ l.eraseP (fun n => n.ID == id), ¬ nd.ID = id := by
  intro l
  induction l with
  | nil => simp
  | cons x l ih =>
    intro hnodup nd hnd
    have hnodup' : (x.ID :: l.map nodeInfo.ID).Nodup := by
      simpa using hnodup
    cases hx : (x.ID == id)
    · rw [List.eraseP_cons, hx] at hnd
      simp only [cond_false] at hnd
      rcases List.mem_cons.mp hnd with rfl | hnd'
      · simpa using hx
      · exact ih (by simpa using (List.nodup_cons.mp hnodup').2) nd hnd'
    · rw [List.eraseP_cons, hx] at hnd
      simp only [cond_true] at hnd
      have hxid : x.ID = id := by simpa using hx
      have hnotin : id ∉ l.map nodeInfo.ID := by
        have := (List.nodup_cons.mp hnodup').1
        rw [hxid] at this
        exact this
      intro he
      exact hnotin (he ▸ List.mem_map_of_mem nodeInfo.ID hnd)

/-- After `removeNode id` on a well-formed ring, no stored node carries
`id` any more. -/
theorem removeNode_no_id {r : hashRing} (h : ringWF r) (id : String) :
    ∀ nd ∈ (r.removeNode id).nodes, ¬ nd.ID = id := by
  have hids := memberIDs_nodup h
  obtain ⟨⟨hsort, hnodup, h1, h2⟩, hcrc, halign⟩ := h
  rw [hashRing.removeNode]
  by_cases hp : (alookup r.nodeMap (crc32 (strBytes id))).isSome
  · rw [if_pos hp]
    exact eraseP_id_complete id r.nodes hids
  · rw [if_neg hp]
    intro nd hnd hid
    have hmem : crc32 (strBytes nd.ID) ∈ r.nodeMap.map Prod.fst := by
      rw [halign] at hnd
      obtain ⟨q, hq, rfl⟩ := List.mem_map.mp hnd
      rw [hcrc q hq]
      exact List.mem_map_of_mem Prod.fst hq
    rw [hid, ← alookup_isSome_iff] at hmem
    exact hp hmem

/-- `removeNode` preserves full well-formedness, provided no stored ID
other than `id` itself collides with `id` under CRC-32. -/
theorem ringWF_removeNode {r : hashRing} (h : ringWF r) (id : String)
    (hcol : ∀ nd ∈ r.nodes, crc32 (strBytes nd.ID) = crc32 (strBytes id) →
      nd.ID = id) :
    ringWF (r.removeNode id) := by
  obtain ⟨hcore, hcrc, halign⟩ := h
  refine ⟨ringCore_removeNode r hcore id, ?_, ?_⟩
  all_goals rw [hashRing.removeNode]
  all_goals by_cases hp : (alookup r.nodeMap (crc32 (strBytes id))).isSome
  · rw [if_pos hp]
    exact fun p hp' => hcrc p (List.mem_of_mem_filter hp')
  · rw [if_neg hp]
    exact hcrc
  · rw [if_pos hp]
    have hcol' : ∀ p ∈ r.nodeMap,
        crc32 (strBytes p.2.ID) = crc32 (strBytes id) → p.2.ID = id := by
      intro p hpm hc
      have hpn : p.2 ∈ r.nodes := by
        rw [halign]
        exact List.mem_map_of_mem Prod.snd hpm
      exact hcol p.2 hpn hc
    show (r.nodes.eraseP (fun nd => nd.ID == id)) = _
    rw [halign]
    exact (filter_key_eraseP id r.nodeMap hcore.2.1 hcrc hcol').symm
  · rw [if_neg hp]
    exact halign

end RemoveLemmas

section CacheLemmas

set_option linter.unusedSectionVars false

theorem keys_filter_ne_generic {κ β : Type} [BEq κ]
    (m : List (κ × β)) (k : κ) :
    (m.filter (fun p => !(p.1 == k))).map Prod.fst =
      (m.map Prod.fst).filter (fun q => !(q == k)) := by
  induction m with
  | nil => simp
  | cons p m ih =>
    cases hp : (p.1 == k) <;> simp [List.filter_cons, hp, ih]

theorem mem_keys_of_mem_members {c : distributedCache} (h : cacheWF c)
    {q : String} (hq : q ∈ memberIDs c) : q ∈ c.nodeHB.map Prod.fst := by
  obtain ⟨nd, hnd, rfl⟩ := List.mem_map.mp hq
  exact h.2.2.2.1 nd hnd

theorem mem_members_of_mem_keys {c : distributedCache} (h : cacheWF c)
    {q : String} (hq : q ∈ c.nodeHB.map Prod.fst) : q ∈ memberIDs c := by
  obtain ⟨p, hp, rfl⟩ := List.mem_map.mp hq
  exact h.2.2.1 p hp

/-- `distributedCache.addNode` preserves well-formedness when the incoming
ID collides with no registered ID. -/
theorem cacheWF_addNode {c : distributedCache} (h : cacheWF c)
    (nd : nodeInfo) (now : Nat)
    (hcol : ∀ q ∈ c.nodeHB.map Prod.fst,
      crc32 (strBytes q) = crc32 (strBytes nd.ID) → q = nd.ID) :
    cacheWF (c.addNode nd now) := by
  obtain ⟨hring, hkeys, hk2m, hm2k, hnc⟩ := h
  by_cases hp : (alookup c.nodeHB nd.ID).isSome
  · have hr : (c.addNode nd now).ring = c.ring := by
      rw [distributedCache.addNode, if_pos hp]
    have hk : (c.addNode nd now).nodeHB.map Prod.fst =
        c.nodeHB.map Prod.fst := by
      rw [distributedCache.addNode]
      exact keys_aupdate_present c.nodeHB nd.ID now hp
    have hmem : memberIDs (c.addNode nd now) = memberIDs c := by
      rw [memberIDs, hr, memberIDs]
    refine ⟨by rw [hr]; exact hring, by rw [hk]; exact hkeys, ?_, ?_, ?_⟩
    · intro p hp'
      rw [hmem]
      have : p.1 ∈ (c.addNode nd now).nodeHB.map Prod.fst :=
        List.mem_map_of_mem Prod.fst hp'
      rw [hk] at this
      exact mem_members_of_mem_keys ⟨hring, hkeys, hk2m, hm2k, hnc⟩ this
    · intro n hn
      rw [hk]
      rw [hr] at hn
      exact hm2k n hn
    · intro a ha b hb
      rw [hk] at ha hb
      exact hnc a ha b hb
  · have hnomap :
        ¬ (alookup c.ring.nodeMap (crc32 (strBytes nd.ID))).isSome := by
      intro hsome
      obtain ⟨m0, hm0⟩ := Option.isSome_iff_exists.mp hsome
      have hmem := alookup_mem hm0
      have hcrcm : crc32 (strBytes m0.ID) = crc32 (strBytes nd.ID) :=
        hring.2.1 _ hmem
      have hm0n : m0 ∈ c.ring.nodes := by
        rw [hring.2.2]
        exact List.mem_map_of_mem Prod.snd hmem
      have hm0k : m0.ID ∈ c.nodeHB.map Prod.fst := hm2k m0 hm0n
      have hmid : m0.ID = nd.ID := hcol _ hm0k hcrcm
      rw [hmid] at hm0k
      rw [← alookup_isSome_iff] at hm0k
      exact hp hm0k
    have hr : (c.addNode nd now).ring.nodes = c.ring.nodes ++ [nd] := by
      rw [distributedCache.addNode, if_neg hp]
      show (c.ring.addNode nd).nodes = _
      rw [hashRing.addNode, if_neg hnomap]
    have hrw : (c.addNode nd now).ring = c.ring.addNode nd := by
      rw [distributedCache.addNode, if_neg hp]
    have hk : (c.addNode nd now).nodeHB.map Prod.fst =
        c.nodeHB.map Prod.fst ++ [nd.ID] := by
      rw [distributedCache.addNode]
      exact keys_aupdate_absent c.nodeHB nd.ID now hp
    have hmem : memberIDs (c.addNode nd now) =
        memberIDs c ++ [nd.ID] := by
      rw [memberIDs, hr]
      simp [memberIDs]
    have hnotin : nd.ID ∉ c.nodeHB.map Prod.fst := by
      rw [← alookup_isSome_iff]
      exact hp
    refine ⟨by rw [hrw]; exact ringWF_addNode c.ring hring nd, ?_, ?_, ?_, ?_⟩
    · rw [hk, List.nodup_append]
      exact ⟨hkeys, List.nodup_singleton _,
        fun a ha hb => by simp at hb; subst hb; exact hnotin ha⟩
    · intro p hp'
      rw [hmem, List.mem_append]
      have hp1 : p.1 ∈ (c.addNode nd now).nodeHB.map Prod.fst :=
        List.mem_map_of_mem Prod.fst hp'
      rw [hk, List.mem_append] at hp1
      rcases hp1 with hp1 | hp1
      · exact Or.inl (mem_members_of_mem_keys
          ⟨hring, hkeys, hk2m, hm2k, hnc⟩ hp1)
      · exact Or.inr hp1
    · intro n hn
      rw [hk, List.mem_append]
      rw [hr, List.mem_append] at hn
      rcases hn with hn | hn
      · exact Or.inl (hm2k n hn)
      · simp at hn
        subst hn
        exact Or.inr (by simp)
    · intro a ha b hb
      rw [hk, List.mem_append] at ha hb
      rcases ha with ha | ha <;> rcases hb with hb | hb
      · exact hnc a ha b hb
      · simp at hb
        subst hb
        exact fun hc => hcol a ha hc
      · simp at ha
        subst ha
        intro hc
        exact (hcol b hb hc.symm).symm
      · simp at ha hb
        rw [ha, hb]
        exact fun _ => rfl

/-- `removeNode_unlocked` preserves well-formedness when the removed ID
collides with no registered ID other than itself. -/
theorem cacheWF_removeNode {c : distributedCache} (h : cacheWF c)
    (id : String)
    (hcol : ∀ q ∈ c.nodeHB.map Prod.fst,
      crc32 (strBytes q) = crc32 (strBytes id) → q = id) :
    cacheWF (c.removeNode_unlocked id) := by
  obtain ⟨hring, hkeys, hk2m, hm2k, hnc⟩ := h
  have hcoln : ∀ nd ∈ c.ring.nodes,
      crc32 (strBytes nd.ID) = crc32 (strBytes id) → nd.ID = id :=
    fun nd hnd => hcol nd.ID (hm2k nd hnd)
  have hrwf := ringWF_removeNode hring id hcoln
  have hnoid := removeNode_no_id hring id
  have hk : (c.removeNode_unlocked id).nodeHB.map Prod.fst =
      (c.nodeHB.map Prod.fst).filter (fun q => !(q == id)) := by
    rw [distributedCache.removeNode_unlocked]
    exact keys_filter_ne_generic c.nodeHB id
  have hsub : ∀ nd ∈ (c.removeNode_unlocked id).ring.nodes,
      nd ∈ c.ring.nodes := by
    intro nd hnd
    rw [distributedCache.removeNode_unlocked] at hnd
    show nd ∈ c.ring.nodes
    revert hnd
    show nd ∈ (c.ring.removeNode id).nodes → _
    rw [hashRing.removeNode]
    by_cases hp : (alookup c.ring.nodeMap (crc32 (strBytes id))).isSome
    · rw [if_pos hp]
      exact fun hnd => List.mem_of_mem_eraseP hnd
    · rw [if_neg hp]
      exact fun hnd => hnd
  refine ⟨hrwf, ?_, ?_, ?_, ?_⟩
  · rw [hk]
    exact hkeys.sublist (List.filter_sublist _)
  · intro p hp'
    have hp1 : p.1 ∈ (c.removeNode_unlocked id).nodeHB.map Prod.fst :=
      List.mem_map_of_mem Prod.fst hp'
    rw [hk, List.mem_filter] at hp1
    have hmem : p.1 ∈ memberIDs c :=
      mem_members_of_mem_keys ⟨hring, hkeys, hk2m, hm2k, hnc⟩ hp1.1
    have hne : ¬ p.1 = id := by simpa using hp1.2
    obtain ⟨w, hw, hwid⟩ := List.mem_map.mp hmem
    rw [memberIDs]
    have hw' : w ∈ (c.removeNode_unlocked id).ring.nodes := by
      rw [distributedCache.removeNode_unlocked]
      show w ∈ (c.ring.removeNode id).nodes
      rw [hashRing.removeNode]
      by_cases hp2 : (alookup c.ring.nodeMap (crc32 (strBytes id))).isSome
      · rw [if_pos hp2]
        refine (List.mem_eraseP_of_neg ?_).mpr hw
        intro hbeq
        have hwi : w.ID = id := by simpa using hbeq
        rw [hwid] at hwi
        exact hne hwi
      · rw [if_neg hp2]
        exact hw
    rw [← hwid]
    exact List.mem_map_of_mem nodeInfo.ID hw'
  · intro n hn
    have hn0 : n ∈ c.ring.nodes := hsub n hn
    have hnid : ¬ n.ID = id := by
      intro he
      exact hnoid n (by
        rw [distributedCache.removeNode_unlocked] at hn
        exact hn) he
    rw [hk, List.mem_filter]
    exact ⟨hm2k n hn0, by simpa using hnid⟩
  · intro a ha b hb
    rw [hk, List.mem_filter] at ha hb
    exact hnc a ha.1 b hb.1

end CacheLemmas

section SweepLemmas

theorem removeNode_unlocked_nodes_sub (c : distributedCache) (q : String) :
    ∀ nd ∈ (c.removeNode_unlocked q).ring.nodes, nd ∈ c.ring.nodes := by
  intro nd hnd
  rw [distributedCache.removeNode_unlocked] at hnd
  show nd ∈ c.ring.nodes
  revert hnd
  show nd ∈ (c.ring.removeNode q).nodes → _
  rw [hashRing.removeNode]
  by_cases hp : (alookup c.ring.nodeMap (crc32 (strBytes q))).isSome
  · rw [if_pos hp]
    exact fun hnd => List.mem_of_mem_eraseP hnd
  · rw [if_neg hp]
    exact fun hnd => hnd

theorem sweepStep_nodeHB_none (my : String) (now : Nat)
    (a : distributedCache) (p : String × Nat) {id : String}
    (h : alookup a.nodeHB id = none) :
    alookup (sweepStep my now a p).nodeHB id = none := by
  rw [sweepStep]
  by_cases hc : p.1 ≠ my ∧ p.2 + monitorInterval < now
  · rw [if_pos hc, distributedCache.removeNode_unlocked]
    by_cases hpq : p.1 = id
    · subst hpq
      exact alookup_filter_self a.nodeHB p.1
    · rw [alookup_filter_ne a.nodeHB hpq]
      exact h
  · rw [if_neg hc]
    exact h

theorem sweepStep_nodes_sub (my : String) (now : Nat)
    (a : distributedCache) (p : String × Nat) :
    ∀ nd ∈ (sweepStep my now a p).ring.nodes, nd ∈ a.ring.nodes := by
  rw [sweepStep]
  by_cases hc : p.1 ≠ my ∧ p.2 + monitorInterval < now
  · rw [if_pos hc]
    exact removeNode_unlocked_nodes_sub a p.1
  · rw [if_neg hc]
    exact fun nd hnd => hnd

theorem sweepStep_my (my : String) (now : Nat) (a : distributedCache)
    (p : String × Nat) :
    alookup (sweepStep my now a p).nodeHB my = alookup a.nodeHB my := by
  rw [sweepStep]
  by_cases hc : p.1 ≠ my ∧ p.2 + monitorInterval < now
  · rw [if_pos hc, distributedCache.removeNode_unlocked]
    exact alookup_filter_ne a.nodeHB hc.1
  · rw [if_neg hc]

theorem sweepStep_keys_sub (my : String) (now : Nat)
    (a : distributedCache) (p : String × Nat) :
    ∀ q ∈ (sweepStep my now a p).nodeHB.map Prod.fst,
      q ∈ a.nodeHB.map Prod.fst := by
  rw [sweepStep]
  by_cases hc : p.1 ≠ my ∧ p.2 + monitorInterval < now
  · rw [if_pos hc]
    intro q hq
    have hq' : q ∈ (a.nodeHB.filter
        (fun p2 => !(p2.1 == p.1))).map Prod.fst := hq
    rw [keys_filter_ne_generic] at hq'
    exact (List.mem_filter.mp hq').1
  · rw [if_neg hc]
    exact fun q hq => hq

theorem sweepStep_WF (my : String) (now : Nat) {a : distributedCache}
    (hw : cacheWF a) (p : String × Nat)
    (hcolp : ∀ q ∈ a.nodeHB.map Prod.fst,
      crc32 (strBytes q) = crc32 (strBytes p.1) → q = p.1) :
    cacheWF (sweepStep my now a p) := by
  rw [sweepStep]
  by_cases hc : p.1 ≠ my ∧ p.2 + monitorInterval < now
  · rw [if_pos hc]
    exact cacheWF_removeNode hw p.1 hcolp
  · rw [if_neg hc]
    exact hw

theorem sweepGo_none (my : String) (now : Nat) :
    ∀ (l : List (String × Nat)) (a : distributedCache) (id : String),
      alookup a.nodeHB id = none → (∀ nd ∈ a.ring.nodes, ¬ nd.ID = id) →
      alookup (l.foldl (sweepStep my now) a).nodeHB id = none ∧
      ∀ nd ∈ (l.foldl (sweepStep my now) a).ring.nodes, ¬ nd.ID = id := by
  intro l
  induction l with
  | nil => exact fun a id h1 h2 => ⟨h1, h2⟩
  | cons p l ih =>
    intro a id h1 h2
    rw [List.foldl_cons]
    exact ih (sweepStep my now a p) id
      (sweepStep_nodeHB_none my now a p h1)
      (fun nd hnd => h2 nd (sweepStep_nodes_sub my now a p nd hnd))

theorem sweepGo_my (my : String) (now : Nat) :
    ∀ (l : List (String × Nat)) (a : distributedCache),
      alookup (l.foldl (sweepStep my now) a).nodeHB my =
        alookup a.nodeHB my := by
  intro l
  induction l with
  | nil => exact fun a => rfl
  | cons p l ih =>
    intro a
    rw [List.foldl_cons, ih (sweepStep my now a p), sweepStep_my]

theorem sweepGo_WF (my : String) (now : Nat) :
    ∀ (l : List (String × Nat)) (a : distributedCache), cacheWF a →
      (∀ p ∈ l, ∀ q ∈ a.nodeHB.map Prod.fst,
        crc32 (strBytes q) = crc32 (strBytes p.1) → q = p.1) →
      cacheWF (l.foldl (sweepStep my now) a) := by
  intro l
  induction l with
  | nil => exact fun a hw _ => hw
  | cons p l ih =>
    intro a hw hgood
    rw [List.foldl_cons]
    refine ih (sweepStep my now a p)
      (sweepStep_WF my now hw p (hgood p (List.mem_cons_self _ _))) ?_
    intro p' hp' q hq
    exact hgood p' (List.mem_cons_of_mem _ hp') q
      (sweepStep_keys_sub my now a p q hq)

theorem sweepGo_removes (my : String) (now : Nat) :
    ∀ (l : List (String × Nat)) (a : distributedCache) (id : String)
      (t : Nat), cacheWF a →
      (∀ p ∈ l, ∀ q ∈ a.nodeHB.map Prod.fst,
        crc32 (strBytes q) = crc32 (strBytes p.1) → q = p.1) →
      (id, t) ∈ l → ¬ id = my → t + monitorInterval < now →
      alookup (l.foldl (sweepStep my now) a).nodeHB id = none ∧
      ∀ nd ∈ (l.foldl (sweepStep my now) a).ring.nodes, ¬ nd.ID = id := by
  intro l
  induction l with
  | nil => exact fun a id t _ _ hmem => absurd hmem (List.not_mem_nil _)
  | cons p l ih =>
    intro a id t hw hgood hmem hne hstale
    rw [List.foldl_cons]
    rcases List.mem_cons.mp hmem with hmem' | hmem'
    · subst hmem'
      have hfire : sweepStep my now a (id, t) =
          a.removeNode_unlocked id := by
        rw [sweepStep, if_pos ⟨hne, hstale⟩]
      rw [hfire]
      refine sweepGo_none my now l (a.removeNode_unlocked id) id ?_ ?_
      · exact alookup_filter_self a.nodeHB id
      · intro nd hnd
        exact removeNode_no_id hw.1 id nd
          (by
            rw [distributedCache.removeNode_unlocked] at hnd
            exact hnd)
    · refine ih (sweepStep my now a p) id t
        (sweepStep_WF my now hw p (hgood p (List.mem_cons_self _ _)))
        ?_ hmem' hne hstale
      intro p' hp' q hq
      exact hgood p' (List.mem_cons_of_mem _ hp') q
        (sweepStep_keys_sub my now a p q hq)

end SweepLemmas

section OpsLemmas

theorem keys_addNode_sub (c : distributedCache) (nd : nodeInfo)
    (now : Nat) :
    ∀ q ∈ (c.addNode nd now).nodeHB.map Prod.fst,
      q ∈ c.nodeHB.map Prod.fst ++ [nd.ID] := by
  intro q hq
  rw [distributedCache.addNode] at hq
  by_cases hp : (alookup c.nodeHB nd.ID).isSome
  · have : (aupdate c.nodeHB nd.ID now).map Prod.fst =
        c.nodeHB.map Prod.fst := keys_aupdate_present c.nodeHB nd.ID now hp
    rw [show (({ c with
        ring := if (alookup c.nodeHB nd.ID).isSome then c.ring
          else c.ring.addNode nd,
        nodeHB := aupdate c.nodeHB nd.ID now } :
        distributedCache)).nodeHB = aupdate c.nodeHB nd.ID now from rfl,
      this] at hq
    exact List.mem_append.mpr (Or.inl hq)
  · have : (aupdate c.nodeHB nd.ID now).map Prod.fst =
        c.nodeHB.map Prod.fst ++ [nd.ID] :=
      keys_aupdate_absent c.nodeHB nd.ID now hp
    rw [show (({ c with
        ring := if (alookup c.nodeHB nd.ID).isSome then c.ring
          else c.ring.addNode nd,
        nodeHB := aupdate c.nodeHB nd.ID now } :
        distributedCache)).nodeHB = aupdate c.nodeHB nd.ID now from rfl,
      this] at hq
    exact hq

theorem keys_removeNode_sub (c : distributedCache) (id : String) :
    ∀ q ∈ (c.removeNode_unlocked id).nodeHB.map Prod.fst,
      q ∈ c.nodeHB.map Prod.fst := by
  intro q hq
  have hq' : q ∈ (c.nodeHB.filter
      (fun p => !(p.1 == id))).map Prod.fst := hq
  rw [keys_filter_ne_generic] at hq'
  exact (List.mem_filter.mp hq').1

theorem ringCore_new : ringCore NewHashRing := by
  refine ⟨?_, ?_, ?_, ?_⟩ <;> simp [NewHashRing]

theorem ringWF_new : ringWF NewHashRing := by
  refine ⟨ringCore_new, ?_, ?_⟩ <;> simp [NewHashRing]

theorem cacheWF_new (red : Nat) : cacheWF (newDistributedCache red) := by
  refine ⟨ringWF_new, ?_, ?_, ?_, ?_⟩ <;>
    simp [newDistributedCache, NewHashRing, memberIDs]

theorem cacheWF_applyOps :
    ∀ (ops : List CacheOp) (c : distributedCache), cacheWF c →
      goodIDs (c.nodeHB.map Prod.fst ++ ops.map CacheOp.opID) →
      cacheWF (applyCacheOps ops c) := by
  intro ops
  induction ops with
  | nil => exact fun c hw _ => hw
  | cons op ops ih =>
    intro c hw hgood
    rw [applyCacheOps, List.foldl_cons]
    have hopmem : op.opID ∈ c.nodeHB.map Prod.fst ++
        (op :: ops).map CacheOp.opID := by
      rw [List.mem_append]
      exact Or.inr (by simp)
    have hkeymem : ∀ q ∈ c.nodeHB.map Prod.fst,
        q ∈ c.nodeHB.map Prod.fst ++ (op :: ops).map CacheOp.opID :=
      fun q hq => List.mem_append.mpr (Or.inl hq)
    have hw' : cacheWF (applyCacheOp c op) := by
      cases op with
      | add nd now =>
        exact cacheWF_addNode hw nd now
          (fun q hq hc => hgood q (hkeymem q hq) nd.ID hopmem hc)
      | remove id =>
        exact cacheWF_removeNode hw id
          (fun q hq hc => hgood q (hkeymem q hq) id hopmem hc)
    have hsub : ∀ q ∈ (applyCacheOp c op).nodeHB.map Prod.fst ++
        ops.map CacheOp.opID,
        q ∈ c.nodeHB.map Prod.fst ++ (op :: ops).map CacheOp.opID := by
      intro q hq
      rw [List.mem_append] at hq
      rcases hq with hq | hq
      · cases op with
        | add nd now =>
          have := keys_addNode_sub c nd now q hq
          rw [List.mem_append] at this
          rcases this with h' | h'
          · exact List.mem_append.mpr (Or.inl h')
          · simp at h'
            subst h'
            exact hopmem
        | remove id =>
          exact List.mem_append.mpr
            (Or.inl (keys_removeNode_sub c id q hq))
      · rw [List.mem_append]
        exact Or.inr (by simp [hq])
    have h1 := ih (applyCacheOp c op) hw'
      (fun a ha b hb hc => hgood a (hsub a ha) b (hsub b hb) hc)
    rw [applyCacheOps] at h1
    exact h1

theorem ringCore_applyOps :
    ∀ (ops : List RingOp) (r : hashRing), ringCore r →
      ringCore (applyRingOps ops r) := by
  intro ops
  induction ops with
  | nil => exact fun r h => h
  | cons op ops ih =>
    intro r h
    rw [applyRingOps, List.foldl_cons]
    have h' : ringCore (applyRingOp r op) := by
      cases op with
      | add nd => exact ringCore_addNode r h nd
      | remove id => exact ringCore_removeNode r h id
    have := ih (applyRingOp r op) h'
    rw [applyRingOps] at this
    exact this

end OpsLemmas

section LookupLemmas

theorem getNode_eq (r : hashRing) (key : String) :
    r.getNode key =
      match r.sortedHashes.get? (ringIdx r.sortedHashes
          (crc32 (strBytes key))) with
      | none => none
      | some h => alookup r.nodeMap h := rfl

theorem getNodes_eq (r : hashRing) (key : String) (redundancy : Nat) :
    r.getNodes key redundancy =
      match r.sortedHashes.get? (ringIdx r.sortedHashes
          (crc32 (strBytes key))) with
      | none => none
      | some h =>
        some (hashRing.getNodesLoop r
          (ringIdx r.sortedHashes (crc32 (strBytes key)))
          (ringIdx r.sortedHashes (crc32 (strBytes key)))
          redundancy [alookup r.nodeMap h]) := rfl

theorem search_mono (sh : List Nat) (hsort : List.Sorted (· < ·) sh)
    (hash : Nat) :
    ∀ k1 k2, k1 ≤ k2 → k2 < sh.length →
      (decide (hash ≤ sh.getD k1 0)) = true →
      (decide (hash ≤ sh.getD k2 0)) = true := by
  intro k1 k2 h12 h2 h1
  rw [decide_eq_true_eq] at h1 ⊢
  exact le_trans h1 (sorted_getD_le sh hsort h12 h2)

theorem mem_getD_index (sh : List Nat) {x : Nat} (hx : x ∈ sh) :
    ∃ k, k < sh.length ∧ sh.getD k 0 = x := by
  obtain ⟨i, hi⟩ := List.mem_iff_get.mp hx
  exact ⟨i.1, i.2, by rw [getD_eq_get sh i.1 i.2]; exact hi⟩

theorem goSearchLoop_le (f : Nat → Bool) :
    ∀ d i j, i ≤ j → goSearchLoop f d i j ≤ j := by
  intro d
  induction d with
  | zero =>
    intro i j hij
    exact hij
  | succ d ih =>
    intro i j hij
    rw [goSearchLoop]
    by_cases hlt : i < j
    · rw [if_pos hlt]
      cases hf : f ((i + j) / 2)
      · simp only [Bool.false_eq_true, if_false]
        exact ih ((i + j) / 2 + 1) j (by omega)
      · simp only [if_true]
        exact le_trans (ih i ((i + j) / 2) (by omega)) (by omega)
    · rw [if_neg hlt]
      exact hij

theorem sortSearch_le (n : Nat) (f : Nat → Bool) : sortSearch n f ≤ n :=
  goSearchLoop_le f n 0 n (by omega)

theorem ringIdx_lt (sh : List Nat) (hne : sh ≠ []) (hash : Nat) :
    ringIdx sh hash < sh.length := by
  have hn : 0 < sh.length := List.length_pos.mpr hne
  rw [ringIdx]
  by_cases h0 : sortSearch sh.length
      (fun i => decide (hash ≤ sh.getD i 0)) = sh.length
  · rw [if_pos h0]
    exact hn
  · rw [if_neg h0]
    have := sortSearch_le sh.length (fun i => decide (hash ≤ sh.getD i 0))
    omega

/-- When some ring hash is at least the key hash, the hash at the start
index is the least such ring hash. -/
theorem ringIdx_least_ge (sh : List Nat)
    (hsort : List.Sorted (· < ·) sh) (hash : Nat)
    (hex : ∃ x ∈ sh, hash ≤ x) :
    hash ≤ sh.getD (ringIdx sh hash) 0 ∧
    ∀ x ∈ sh, hash ≤ x → sh.getD (ringIdx sh hash) 0 ≤ x := by
  obtain ⟨x0, hx0, hx0ge⟩ := hex
  obtain ⟨k0, hk0, hk0eq⟩ := mem_getD_index sh hx0
  obtain ⟨hle, hlow, hhigh⟩ := sortSearch_spec sh.length
    (fun i => decide (hash ≤ sh.getD i 0)) (search_mono sh hsort hash)
  have hi0 : sortSearch sh.length
      (fun i => decide (hash ≤ sh.getD i 0)) < sh.length := by
    rcases Nat.lt_or_ge (sortSearch sh.length
      (fun i => decide (hash ≤ sh.getD i 0))) sh.length with h | h
    · exact h
    · exfalso
      have := hlow k0 (by omega)
      rw [decide_eq_false_iff_not] at this
      rw [hk0eq] at this
      exact this hx0ge
  have hmaster : ringIdx sh hash = sortSearch sh.length
      (fun i => decide (hash ≤ sh.getD i 0)) := by
    rw [ringIdx, if_neg (by omega)]
  constructor
  · have := hhigh _ (le_refl _) hi0
    rw [decide_eq_true_eq] at this
    rw [hmaster]
    exact this
  · intro x hx hxge
    obtain ⟨k, hk, hkeq⟩ := mem_getD_index sh hx
    rcases Nat.lt_or_ge k (sortSearch sh.length
      (fun i => decide (hash ≤ sh.getD i 0))) with hlt | hge
    · exfalso
      have := hlow k hlt
      rw [decide_eq_false_iff_not, hkeq] at this
      exact this hxge
    · rw [hmaster, ← hkeq]
      exact sorted_getD_le sh hsort hge hk

/-- When every ring hash is below the key hash, the search runs past the
end, the index wraps to 0, and the hash there is the least ring hash. -/
theorem ringIdx_wrap (sh : List Nat) (hsort : List.Sorted (· < ·) sh)
    (hne : sh ≠ []) (hash : Nat)
    (hall : ∀ x ∈ sh, x < hash) :
    ringIdx sh hash = 0 ∧ ∀ x ∈ sh, sh.getD 0 0 ≤ x := by
  have hn : 0 < sh.length := List.length_pos.mpr hne
  obtain ⟨hle, hlow, hhigh⟩ := sortSearch_spec sh.length
    (fun i => decide (hash ≤ sh.getD i 0)) (search_mono sh hsort hash)
  have hi0 : sortSearch sh.length
      (fun i => decide (hash ≤ sh.getD i 0)) = sh.length := by
    rcases Nat.lt_or_ge (sortSearch sh.length
      (fun i => decide (hash ≤ sh.getD i 0))) sh.length with h | h
    · exfalso
      have hf := hhigh _ (le_refl _) h
      rw [decide_eq_true_eq] at hf
      have hmem : sh.getD (sortSearch sh.length
          (fun i => decide (hash ≤ sh.getD i 0))) 0 ∈ sh := by
        rw [getD_eq_get sh _ h]
        exact List.get_mem sh _ _
      exact absurd hf (not_le.mpr (hall _ hmem))
    · omega
  refine ⟨by rw [ringIdx, if_pos hi0], ?_⟩
  intro x hx
  obtain ⟨k, hk, hkeq⟩ := mem_getD_index sh hx
  rw [← hkeq]
  exact sorted_getD_le sh hsort (Nat.zero_le k) hk

end LookupLemmas

section GetNodeLemmas

/-- On a non-empty ring, `getNode` reads the node stored at the wrapped
search index, and that read succeeds whenever the ring is well formed. -/
theorem getNode_at_ringIdx (r : hashRing) (hne : r.sortedHashes ≠ [])
    (key : String) :
    r.getNode key = alookup r.nodeMap
      (r.sortedHashes.getD
        (ringIdx r.sortedHashes (crc32 (strBytes key))) 0) := by
  rw [getNode_eq]
  have hlt := ringIdx_lt r.sortedHashes hne (crc32 (strBytes key))
  rw [get?_eq_get_of_lt r.sortedHashes _ hlt,
    getD_eq_get r.sortedHashes _ hlt]

theorem alookup_isSome_of_mem_sh {r : hashRing} (hcore : ringCore r)
    {h : Nat} (hmem : h ∈ r.sortedHashes) :
    (alookup r.nodeMap h).isSome := by
  rw [alookup_isSome_iff]
  exact hcore.2.2.1 h hmem

theorem getD_mem (sh : List Nat) {i : Nat} (hi : i < sh.length) :
    sh.getD i 0 ∈ sh := by
  rw [getD_eq_get sh i hi]
  exact List.get_mem sh i hi

theorem getNode_isSome {r : hashRing} (hcore : ringCore r)
    (hne : r.sortedHashes ≠ []) (key : String) :
    (r.getNode key).isSome := by
  rw [getNode_at_ringIdx r hne key]
  exact alookup_isSome_of_mem_sh hcore
    (getD_mem r.sortedHashes (ringIdx_lt r.sortedHashes hne _))

/-- The clockwise walk of `getNodes`, started `j` steps past the primary
index with `j` still inside the ring, appends the map reads at the next
`min red (n − 1 − j)` clockwise positions. -/
theorem getNodesLoop_spec (r : hashRing)
    (hn : 0 < r.sortedHashes.length) {master : Nat}
    (hm : master < r.sortedHashes.length) :
    ∀ (red j : Nat) (acc : List (Option nodeInfo)),
      j < r.sortedHashes.length →
      hashRing.getNodesLoop r master
          ((master + j) % r.sortedHashes.length) red acc =
        acc ++ (List.range
            (min red (r.sortedHashes.length - 1 - j))).map
          (fun t => alookup r.nodeMap
            (r.sortedHashes.getD
              ((master + j + 1 + t) % r.sortedHashes.length) 0)) := by
  intro red
  induction red with
  | zero =>
    intro j acc hj
    simp [hashRing.getNodesLoop]
  | succ red ih =>
    intro j acc hj
    have hmod : (master + j) % r.sortedHashes.length <
        r.sortedHashes.length := Nat.mod_lt _ hn
    have hstep : (master + j + 1) % r.sortedHashes.length =
        ((master + j) % r.sortedHashes.length + 1) %
          r.sortedHashes.length := by
      rw [Nat.mod_add_mod]
    rw [hashRing.getNodesLoop]
    have hidx : (if r.sortedHashes.length ≤
          (master + j) % r.sortedHashes.length + 1 then 0
        else (master + j) % r.sortedHashes.length + 1) =
        (master + j + 1) % r.sortedHashes.length := by
      by_cases hcase : r.sortedHashes.length ≤
          (master + j) % r.sortedHashes.length + 1
      · rw [if_pos hcase, hstep,
          show (master + j) % r.sortedHashes.length =
            r.sortedHashes.length - 1 from by omega,
          show r.sortedHashes.length - 1 + 1 =
            r.sortedHashes.length from by omega,
          Nat.mod_self]
      · rw [if_neg hcase, hstep]
        rw [Nat.mod_eq_of_lt
          (show (master + j) % r.sortedHashes.length + 1 <
            r.sortedHashes.length from by omega)]
    rw [hidx]
    by_cases hstop : (master + j + 1) % r.sortedHashes.length = master
    · rw [if_pos hstop]
      have hj1 : j + 1 = r.sortedHashes.length := by
        rcases Nat.lt_or_ge (master + j + 1) r.sortedHashes.length
          with hlt | hge
        · rw [Nat.mod_eq_of_lt hlt] at hstop
          omega
        · have hsub : (master + j + 1) % r.sortedHashes.length =
              master + j + 1 - r.sortedHashes.length := by
            rw [Nat.mod_eq_sub_mod hge, Nat.mod_eq_of_lt (by omega)]
          rw [hsub] at hstop
          omega
      rw [show min (red + 1) (r.sortedHashes.length - 1 - j) = 0 from
        by omega]
      simp
    · rw [if_neg hstop]
      have hj1 : j + 1 < r.sortedHashes.length := by
        rcases Nat.lt_or_ge (j + 1) r.sortedHashes.length with h | h
        · exact h
        · exfalso
          have hj1' : j + 1 = r.sortedHashes.length := by omega
          have : (master + j + 1) % r.sortedHashes.length = master := by
            rw [show master + j + 1 =
              master + r.sortedHashes.length from by omega,
              Nat.add_mod_right, Nat.mod_eq_of_lt hm]
          exact hstop this
      have hrec := ih (j + 1)
        (acc ++ [alookup r.nodeMap (r.sortedHashes.getD
          ((master + j + 1) % r.sortedHashes.length) 0)]) hj1
      rw [show master + (j + 1) = master + j + 1 from by omega] at hrec
      rw [hrec, List.append_assoc]
      congr 1
      rw [show min (red + 1) (r.sortedHashes.length - 1 - j) =
        min red (r.sortedHashes.length - 1 - (j + 1)) + 1 from by omega]
      rw [List.range_succ_eq_map, List.map_cons, List.map_map]
      rw [List.singleton_append]
      congr 1
      refine List.map_congr_left (fun t _ => ?_)
      show alookup r.nodeMap (r.sortedHashes.getD
          ((master + j + 1 + 1 + t) % r.sortedHashes.length) 0) =
        alookup r.nodeMap (r.sortedHashes.getD
          ((master + j + 1 + (t + 1)) % r.sortedHashes.length) 0)
      rw [show master + j + 1 + 1 + t =
        master + j + 1 + (t + 1) from by omega]

end GetNodeLemmas

section GetNodesSpec

/-- Closed form of `getNodes` on a non-empty ring: the reads at the first
`min (redundancy+1) n` clockwise ring positions starting from the wrapped
search index. -/
theorem getNodes_spec (r : hashRing) (hne : r.sortedHashes ≠ [])
    (key : String) (red : Nat) :
    r.getNodes key red = some
      ((List.range (min (red + 1) r.sortedHashes.length)).map
        (fun i => alookup r.nodeMap (r.sortedHashes.getD
          ((ringIdx r.sortedHashes (crc32 (strBytes key)) + i) %
            r.sortedHashes.length) 0))) := by
  have hn : 0 < r.sortedHashes.length := List.length_pos.mpr hne
  have hm := ringIdx_lt r.sortedHashes hne (crc32 (strBytes key))
  rw [getNodes_eq, get?_eq_get_of_lt r.sortedHashes _ hm]
  have hloop := getNodesLoop_spec r hn hm red 0
    [alookup r.nodeMap (r.sortedHashes.get
      ⟨ringIdx r.sortedHashes (crc32 (strBytes key)), hm⟩)] hn
  rw [show (ringIdx r.sortedHashes (crc32 (strBytes key)) + 0) %
      r.sortedHashes.length =
      ringIdx r.sortedHashes (crc32 (strBytes key)) from by
    rw [Nat.add_zero, Nat.mod_eq_of_lt hm]] at hloop
  show some (hashRing.getNodesLoop r
      (ringIdx r.sortedHashes (crc32 (strBytes key)))
      (ringIdx r.sortedHashes (crc32 (strBytes key))) red
      [alookup r.nodeMap (r.sortedHashes.get
        ⟨ringIdx r.sortedHashes (crc32 (strBytes key)), hm⟩)]) = _
  rw [hloop]
  congr 1
  rw [show min (red + 1) r.sortedHashes.length =
    min red (r.sortedHashes.length - 1 - 0) + 1 from by omega]
  rw [List.range_succ_eq_map, List.map_cons, List.map_map]
  rw [List.singleton_append]
  congr 1
  · rw [show (ringIdx r.sortedHashes (crc32 (strBytes key)) + 0) %
        r.sortedHashes.length =
        ringIdx r.sortedHashes (crc32 (strBytes key)) from by
      rw [Nat.add_zero, Nat.mod_eq_of_lt hm]]
    rw [getD_eq_get r.sortedHashes _ hm]
  · refine (List.map_congr_left (fun t _ => ?_)).symm
    show alookup r.nodeMap (r.sortedHashes.getD
        ((ringIdx r.sortedHashes (crc32 (strBytes key)) + (t + 1)) %
          r.sortedHashes.length) 0) =
      alookup r.nodeMap (r.sortedHashes.getD
        ((ringIdx r.sortedHashes (crc32 (strBytes key)) + 0 + 1 + t) %
          r.sortedHashes.length) 0)
    rw [show ringIdx r.sortedHashes (crc32 (strBytes key)) + (t + 1) =
      ringIdx r.sortedHashes (crc32 (strBytes key)) + 0 + 1 + t from
      by omega]

theorem mod_shift_inj (n a : Nat) {i i' : Nat} (hi : i < n)
    (hi' : i' < n) (heq : (a + i) % n = (a + i') % n) : i = i' := by
  have hmeq : Nat.ModEq n i i' := Nat.ModEq.add_left_cancel' a heq
  rw [Nat.ModEq, Nat.mod_eq_of_lt hi, Nat.mod_eq_of_lt hi'] at hmeq
  exact hmeq

/-- Distinct in-range ring positions hold distinct hashes. -/
theorem getD_ne_of_ne {sh : List Nat} (hsort : List.Sorted (· < ·) sh)
    {p q : Nat} (hp : p < sh.length) (hq : q < sh.length)
    (hne : ¬ p = q) : ¬ sh.getD p 0 = sh.getD q 0 := by
  rcases Nat.lt_or_ge p q with h | h
  · rw [getD_eq_get sh p hp, getD_eq_get sh q hq]
    exact ne_of_lt (List.Sorted.rel_get_of_lt hsort h)
  · have h' : q < p := by omega
    rw [getD_eq_get sh p hp, getD_eq_get sh q hq]
    exact (ne_of_lt (List.Sorted.rel_get_of_lt hsort h')).symm

/-- On a well-formed ring, reads at distinct hashes yield distinct
nodes. -/
theorem alookup_ne_of_hash_ne {r : hashRing} (hwf : ringWF r)
    {h1 h2 : Nat} (hm1 : h1 ∈ r.sortedHashes) (hm2 : h2 ∈ r.sortedHashes)
    (hne : ¬ h1 = h2) :
    ¬ alookup r.nodeMap h1 = alookup r.nodeMap h2 := by
  intro heq
  have hs1 := alookup_isSome_of_mem_sh hwf.1 hm1
  have hs2 := alookup_isSome_of_mem_sh hwf.1 hm2
  obtain ⟨v1, hv1⟩ := Option.isSome_iff_exists.mp hs1
  obtain ⟨v2, hv2⟩ := Option.isSome_iff_exists.mp hs2
  have hmem1 := alookup_mem hv1
  have hmem2 := alookup_mem hv2
  have hc1 := hwf.2.1 _ hmem1
  have hc2 := hwf.2.1 _ hmem2
  rw [hv1, hv2] at heq
  injection heq with heq'
  subst heq'
  exact hne (hc1.symm.trans hc2)

/-- The replica list produced on a well-formed non-empty ring has no
duplicate entries. -/
theorem getNodes_nodup (r : hashRing) (hwf : ringWF r)
    (hne : r.sortedHashes ≠ []) (key : String) (red : Nat) :
    ((List.range (min (red + 1) r.sortedHashes.length)).map
      (fun i => alookup r.nodeMap (r.sortedHashes.getD
        ((ringIdx r.sortedHashes (crc32 (strBytes key)) + i) %
          r.sortedHashes.length) 0))).Nodup := by
  have hn : 0 < r.sortedHashes.length := List.length_pos.mpr hne
  refine List.Nodup.map_on ?_ (List.nodup_range _)
  intro i hi i' hi' heq
  rw [List.mem_range] at hi hi'
  have hik : i < r.sortedHashes.length := by omega
  have hik' : i' < r.sortedHashes.length := by omega
  by_contra hneq
  have hpos : ¬ (ringIdx r.sortedHashes (crc32 (strBytes key)) + i) %
      r.sortedHashes.length =
      (ringIdx r.sortedHashes (crc32 (strBytes key)) + i') %
        r.sortedHashes.length :=
    fun hc => hneq (mod_shift_inj r.sortedHashes.length _ hik hik' hc)
  have hpl : (ringIdx r.sortedHashes (crc32 (strBytes key)) + i) %
      r.sortedHashes.length < r.sortedHashes.length := Nat.mod_lt _ hn
  have hpl' : (ringIdx r.sortedHashes (crc32 (strBytes key)) + i') %
      r.sortedHashes.length < r.sortedHashes.length := Nat.mod_lt _ hn
  exact alookup_ne_of_hash_ne hwf
    (getD_mem r.sortedHashes hpl) (getD_mem r.sortedHashes hpl')
    (getD_ne_of_ne hwf.1.1 hpl hpl' hpos) heq

theorem ringIdx_nil (hash : Nat) : ringIdx [] hash = 0 := rfl

theorem getNode_empty (r : hashRing) (h : r.sortedHashes = [])
    (key : String) : r.getNode key = none := by
  rw [getNode_eq, h, ringIdx_nil]
  rfl

theorem getNodes_empty (r : hashRing) (h : r.sortedHashes = [])
    (key : String) (red : Nat) : r.getNodes key red = none := by
  rw [getNodes_eq, h, ringIdx_nil]
  rfl

end GetNodesSpec

section DispatchLemmas

theorem setToNode_false_iff (resp : nodeInfo → Int → SetResp)
    (nd : nodeInfo) (c : Int) :
    setToNode resp nd c = false ↔ resp nd c = SetResp.transportErr := by
  rw [setToNode]
  cases h : resp nd c <;> simp

theorem setToNode_true_iff (resp : nodeInfo → Int → SetResp)
    (nd : nodeInfo) (c : Int) :
    setToNode resp nd c = true ↔ ∃ code, resp nd c = SetResp.ok code := by
  rw [setToNode]
  cases h : resp nd c <;> simp

theorem setLoop_len (resp : nodeInfo → Int → SetResp) :
    ∀ (nodes : List nodeInfo) (idx : Nat),
      (setLoop resp nodes idx).1.length ≤ nodes.length := by
  intro nodes
  induction nodes with
  | nil => intro idx; simp [setLoop]
  | cons nd rest ih =>
    intro idx
    cases rest with
    | nil =>
      rw [setLoop]
      cases hs : setToNode resp nd ((idx : Int) - 1) <;> simp
    | cons r1 rs =>
      rw [setLoop]
      cases hs : setToNode resp nd ((idx : Int) - 1)
      · simp only [Bool.false_eq_true, if_false, List.length_cons]
        exact Nat.succ_le_succ (ih (idx + 1))
      · simp

theorem setLoop_ne_nil (resp : nodeInfo → Int → SetResp)
    (nd : nodeInfo) (rest : List nodeInfo) (idx : Nat) :
    (setLoop resp (nd :: rest) idx).1 ≠ [] := by
  cases rest with
  | nil =>
    rw [setLoop]
    cases hs : setToNode resp nd ((idx : Int) - 1) <;> simp
  | cons r1 rs =>
    rw [setLoop]
    cases hs : setToNode resp nd ((idx : Int) - 1) <;> simp

/-- Every attempt the SET loop makes pairs the next untried replica with
the rank one less than its position in the attempt order. -/
theorem setLoop_get (resp : nodeInfo → Int → SetResp) (d : nodeInfo) :
    ∀ (nodes : List nodeInfo) (idx : Nat) (i : Nat)
      (hi : i < (setLoop resp nodes idx).1.length),
      (setLoop resp nodes idx).1.get ⟨i, hi⟩ =
        (nodes.getD i d, ((idx + i : Nat) : Int) - 1) := by
  intro nodes
  induction nodes with
  | nil => intro idx i hi; simp [setLoop] at hi
  | cons nd rest ih =>
    intro idx i hi
    revert hi
    cases rest with
    | nil =>
      rw [setLoop]
      cases hs : setToNode resp nd ((idx : Int) - 1) <;>
        · intro hi
          have hi0 : i = 0 := by simp at hi; omega
          subst hi0
          simp
    | cons r1 rs =>
      rw [setLoop]
      cases hs : setToNode resp nd ((idx : Int) - 1)
      · simp only [Bool.false_eq_true, if_false]
        intro hi
        cases i with
        | zero => simp
        | succ i =>
          simp only [List.length_cons, Nat.succ_lt_succ_iff] at hi
          have hrec := ih (idx + 1) i hi
          show (setLoop resp (r1 :: rs) (idx + 1)).1.get ⟨i, hi⟩ =
            ((r1 :: rs).getD i d, ((idx + (i + 1) : Nat) : Int) - 1)
          rw [hrec]
          congr 1
          push_cast
          omega
      · intro hi
        have hi0 : i = 0 := by simp at hi; omega
        subst hi0
        simp

/-- The loop advances past an attempt exactly when that attempt produced
a transport error. -/
theorem setLoop_advance (resp : nodeInfo → Int → SetResp) :
    ∀ (nodes : List nodeInfo) (idx : Nat) (i : Nat)
      (hi : i + 1 < (setLoop resp nodes idx).1.length),
      resp ((setLoop resp nodes idx).1.get
          ⟨i, Nat.lt_of_succ_lt hi⟩).1
        ((setLoop resp nodes idx).1.get ⟨i, Nat.lt_of_succ_lt hi⟩).2 =
        SetResp.transportErr := by
  intro nodes
  induction nodes with
  | nil => intro idx i hi; simp [setLoop] at hi
  | cons nd rest ih =>
    intro idx i hi
    revert hi
    cases rest with
    | nil =>
      rw [setLoop]
      cases hs : setToNode resp nd ((idx : Int) - 1) <;>
        · intro hi
          simp at hi
    | cons r1 rs =>
      rw [setLoop]
      cases hs : setToNode resp nd ((idx : Int) - 1)
      · simp only [Bool.false_eq_true, if_false]
        intro hi
        cases i with
        | zero =>
          show resp nd ((idx : Int) - 1) = SetResp.transportErr
          exact (setToNode_false_iff resp nd _).mp hs
        | succ i =>
          simp only [List.length_cons, Nat.succ_lt_succ_iff] at hi
          exact ih (idx + 1) i hi
      · intro hi
        simp at hi

/-- The final error is nil exactly when the last attempt (if any) produced
a delivered response, of whatever status code. -/
theorem setLoop_result (resp : nodeInfo → Int → SetResp) :
    ∀ (nodes : List nodeInfo) (idx : Nat),
      (setLoop resp nodes idx).2 = true ↔
        ∀ a ∈ (setLoop resp nodes idx).1.getLast?,
          ∃ code, resp a.1 a.2 = SetResp.ok code := by
  intro nodes
  induction nodes with
  | nil => intro idx; simp [setLoop]
  | cons nd rest ih =>
    intro idx
    cases rest with
    | nil =>
      rw [setLoop]
      cases hs : setToNode resp nd ((idx : Int) - 1)
      · have := (setToNode_false_iff resp nd ((idx : Int) - 1)).mp hs
        simp [this]
      · have := (setToNode_true_iff resp nd ((idx : Int) - 1)).mp hs
        simp [this]
    | cons r1 rs =>
      rw [setLoop]
      cases hs : setToNode resp nd ((idx : Int) - 1)
      · simp only [Bool.false_eq_true, if_false]
        obtain ⟨b, l', hbl⟩ :
            ∃ b l', (setLoop resp (r1 :: rs) (idx + 1)).1 = b :: l' := by
          cases hcase : (setLoop resp (r1 :: rs) (idx + 1)).1 with
          | nil =>
            exact absurd hcase (setLoop_ne_nil resp r1 rs (idx + 1))
          | cons b l' => exact ⟨b, l', rfl⟩
        simp only [hbl, List.getLast?_cons_cons]
        have := ih (idx + 1)
        rw [hbl] at this
        simpa using this
      · have := (setToNode_true_iff resp nd ((idx : Int) - 1)).mp hs
        simp [this]

theorem remove_map_frame (key : String) (pid : String) :
    ∀ (stores : List (String × List (String × cacheData))) (id : String),
      ¬ id = pid →
      alookup (stores.map
        (fun s => if s.1 == pid then (s.1, cacheNode.remove s.2 key)
          else s)) id = alookup stores id := by
  intro stores
  induction stores with
  | nil => intro id h; simp [alookup]
  | cons s stores ih =>
    intro id h
    cases hp : (s.1 == pid)
    · simp only [List.map_cons, hp, Bool.false_eq_true, if_false]
      rw [alookup_cons, alookup_cons, ih id h]
    · have heq : s.1 = pid := by simpa using hp
      simp only [List.map_cons, hp, if_true]
      rw [alookup_cons, alookup_cons]
      have hne : (s.1 == id) = false := by
        simp only [beq_eq_false_iff_ne, ne_eq, heq]
        exact fun he => h he.symm
      rw [show ((s.1, cacheNode.remove s.2 key) :
          String × List (String × cacheData)).1 = s.1 from rfl, hne]
      simp only [Bool.false_eq_true, if_false]
      exact ih id h

theorem remove_map_primary (key : String) (pid : String) :
    ∀ (stores : List (String × List (String × cacheData))),
      alookup (stores.map
        (fun s => if s.1 == pid then (s.1, cacheNode.remove s.2 key)
          else s)) pid =
        (alookup stores pid).map (fun st => cacheNode.remove st key) := by
  intro stores
  induction stores with
  | nil => simp [alookup]
  | cons s stores ih =>
    cases hp : (s.1 == pid)
    · simp only [List.map_cons, hp, Bool.false_eq_true, if_false]
      rw [alookup_cons, alookup_cons, hp]
      simp only [Bool.false_eq_true, if_false]
      exact ih
    · simp only [List.map_cons, hp, if_true]
      rw [alookup_cons, alookup_cons, hp]
      simp

end DispatchLemmas

section Claims

/-- C9: After every sequence of `addNode` and `removeNode` operations on
the hash ring, `sortedHashes` is strictly ascending and its element set
equals the key set of `nodeMap`; `addNode` on a hash already present
leaves the ring unchanged. -/
theorem C9_ring_op_invariants (ops : List RingOp) :
    List.Sorted (· < ·) (applyRingOps ops NewHashRing).sortedHashes ∧
    (∀ h, h ∈ (applyRingOps ops NewHashRing).sortedHashes ↔
      h ∈ (applyRingOps ops NewHashRing).nodeMap.map Prod.fst) ∧
    ∀ nd, crc32 (strBytes nd.ID) ∈
        (applyRingOps ops NewHashRing).nodeMap.map Prod.fst →
      (applyRingOps ops NewHashRing).addNode nd =
        applyRingOps ops NewHashRing := by
  have hcore := ringCore_applyOps ops NewHashRing ringCore_new
  refine ⟨hcore.1, fun h => ⟨fun hm => hcore.2.2.1 h hm,
    fun hm => hcore.2.2.2 h hm⟩, ?_⟩
  intro nd hmem
  rw [hashRing.addNode, if_pos ((alookup_isSome_iff _ _).mpr hmem)]

set_option maxRecDepth 1000000 in
theorem C9_ring_op_invariants_witness :
    (applyRingOps [RingOp.add nodeA, RingOp.add nodeB]
        NewHashRing).addNode nodeA =
      applyRingOps [RingOp.add nodeA, RingOp.add nodeB] NewHashRing :=
  (C9_ring_op_invariants [RingOp.add nodeA, RingOp.add nodeB]).2.2 nodeA
    (by decide)

/-- C10: On the empty ring both `getNode` and `getNodes` hit the
out-of-bounds read of `sortedHashes[0]` — embedded as the `none` result,
the model of the Go panic — for every key; there is no error branch, and
on any well-formed non-empty ring both lookups are total. -/
theorem C10_empty_ring_panics (r : hashRing) (key : String) (red : Nat) :
    (r.sortedHashes = [] →
      r.getNode key = none ∧ r.getNodes key red = none) ∧
    (ringWF r → r.sortedHashes ≠ [] →
      (r.getNode key).isSome ∧ (r.getNodes key red).isSome) := by
  constructor
  · intro h
    exact ⟨getNode_empty r h key, getNodes_empty r h key red⟩
  · intro hwf hne
    refine ⟨getNode_isSome hwf.1 hne key, ?_⟩
    rw [getNodes_spec r hne key red]
    rfl

set_option maxRecDepth 1000000 in
theorem C10_empty_ring_panics_witness :
    NewHashRing.getNode "key1" = none ∧ (ringAB.getNode "key1").isSome :=
  ⟨((C10_empty_ring_panics NewHashRing "key1" 0).1 rfl).1,
    ((C10_empty_ring_panics ringAB "key1" 0).2 (by decide) (by decide)).1⟩

/-- C4: On a well-formed non-empty ring, `getNode` returns the node whose
ring hash is the smallest hash at least the key's CRC-32, wrapping to the
node with the smallest hash when no ring hash qualifies; combined with the
empty case of C10, it fails only on the empty ring. -/
theorem C4_primary_lookup (r : hashRing) (key : String)
    (hwf : ringWF r) (hne : r.sortedHashes ≠ []) :
    ∃ t nd, r.getNode key = some nd ∧ alookup r.nodeMap t = some nd ∧
      t ∈ r.sortedHashes ∧
      ((∃ x ∈ r.sortedHashes, crc32 (strBytes key) ≤ x) →
        crc32 (strBytes key) ≤ t ∧
        ∀ x ∈ r.sortedHashes, crc32 (strBytes key) ≤ x → t ≤ x) ∧
      ((∀ x ∈ r.sortedHashes, x < crc32 (strBytes key)) →
        ∀ x ∈ r.sortedHashes, t ≤ x) := by
  have hm := ringIdx_lt r.sortedHashes hne (crc32 (strBytes key))
  have hsome := getNode_isSome hwf.1 hne key
  obtain ⟨nd, hnd⟩ := Option.isSome_iff_exists.mp hsome
  refine ⟨r.sortedHashes.getD
    (ringIdx r.sortedHashes (crc32 (strBytes key))) 0, nd, hnd, ?_,
    getD_mem _ hm, ?_, ?_⟩
  · rw [← getNode_at_ringIdx r hne key]
    exact hnd
  · intro hex
    exact ringIdx_least_ge r.sortedHashes hwf.1.1 _ hex
  · intro hall
    obtain ⟨hz, hmin⟩ := ringIdx_wrap r.sortedHashes hwf.1.1 hne _ hall
    rw [hz]
    exact hmin

set_option maxRecDepth 1000000 in
theorem C4_primary_lookup_witness :
    ∃ t nd, ringAB.getNode "key1" = some nd ∧
      alookup ringAB.nodeMap t = some nd ∧
      t ∈ ringAB.sortedHashes ∧
      ((∃ x ∈ ringAB.sortedHashes, crc32 (strBytes "key1") ≤ x) →
        crc32 (strBytes "key1") ≤ t ∧
        ∀ x ∈ ringAB.sortedHashes, crc32 (strBytes "key1") ≤ x → t ≤ x) ∧
      ((∀ x ∈ ringAB.sortedHashes, x < crc32 (strBytes "key1")) →
        ∀ x ∈ ringAB.sortedHashes, t ≤ x) :=
  C4_primary_lookup ringAB "key1" (by decide) (by decide)

/-- C3: On a well-formed non-empty ring, `getNodes key red` returns a list
of length `min (ring size) (red + 1)` of pairwise-distinct, non-nil nodes
taken clockwise from the primary position, and its element at index 0
equals `getNode key`. -/
theorem C3_replica_list (r : hashRing) (key : String) (red : Nat)
    (hwf : ringWF r) (hne : r.sortedHashes ≠ []) :
    ∃ l, r.getNodes key red = some l ∧
      l.length = min r.sortedHashes.length (red + 1) ∧
      l.Nodup ∧ (∀ x ∈ l, x.isSome) ∧
      (∀ i (hi : i < l.length), l.get ⟨i, hi⟩ =
        alookup r.nodeMap (r.sortedHashes.getD
          ((ringIdx r.sortedHashes (crc32 (strBytes key)) + i) %
            r.sortedHashes.length) 0)) ∧
      (∀ hl : 0 < l.length, l.get ⟨0, hl⟩ = r.getNode key) := by
  have hn : 0 < r.sortedHashes.length := List.length_pos.mpr hne
  refine ⟨_, getNodes_spec r hne key red, ?_,
    getNodes_nodup r hwf hne key red, ?_, ?_, ?_⟩
  · rw [List.length_map, List.length_range]
    exact Nat.min_comm _ _
  · intro x hx
    obtain ⟨i, hi, rfl⟩ := List.mem_map.mp hx
    exact alookup_isSome_of_mem_sh hwf.1
      (getD_mem _ (Nat.mod_lt _ hn))
  · intro i hi
    rw [List.get_eq_getElem, List.getElem_map, List.getElem_range]
  · intro hl
    rw [List.get_eq_getElem, List.getElem_map, List.getElem_range]
    rw [show (ringIdx r.sortedHashes (crc32 (strBytes key)) + 0) %
        r.sortedHashes.length =
        ringIdx r.sortedHashes (crc32 (strBytes key)) from by
      rw [Nat.add_zero, Nat.mod_eq_of_lt (ringIdx_lt _ hne _)]]
    exact (getNode_at_ringIdx r hne key).symm

set_option maxRecDepth 1000000 in
theorem C3_replica_list_witness :
    ∃ l, ringAB.getNodes "key1" 1 = some l ∧
      l.length = min ringAB.sortedHashes.length (1 + 1) ∧
      l.Nodup ∧ (∀ x ∈ l, x.isSome) ∧
      (∀ i (hi : i < l.length), l.get ⟨i, hi⟩ =
        alookup ringAB.nodeMap (ringAB.sortedHashes.getD
          ((ringIdx ringAB.sortedHashes (crc32 (strBytes "key1")) + i) %
            ringAB.sortedHashes.length) 0)) ∧
      (∀ hl : 0 < l.length, l.get ⟨0, hl⟩ = ringAB.getNode "key1") :=
  C3_replica_list ringAB "key1" 1 (by decide) (by decide)

set_option maxRecDepth 1000000 in
/-- C1: code-bug evidence. The source's receiver drops a heartbeat whose
group EQUALS the local group and admits one whose group differs — the
inverse of the specified and commented behaviour.  On closed inputs: a
same-group heartbeat from `node2` leaves the cache unchanged, while a
cross-group heartbeat from `node3` (group B) is admitted into the
registry. -/
theorem C1_group_filter_inverted :
    (nodeB.GroupID = "A" ∧ ¬ nodeB.ID = "node1" ∧
      cacheSelf.receiveHeartbeat "node1" "A" nodeB 300 = cacheSelf) ∧
    (nodeX.GroupID = "B" ∧
      (alookup (cacheSelf.receiveHeartbeat "node1" "A" nodeX
        300).nodeHB "node3").isSome) := by decide

set_option maxRecDepth 1000000 in
/-- C2: counterexample. After observing `plumless` and then `buckeroo`
(distinct IDs with equal CRC-32), `buckeroo` is a key of the heartbeat
registry but no ring node carries it, so the claimed invariant fails in
the collision case. -/
theorem C2_collision_counterexample :
    ¬ nodePlum.ID = nodeBuck.ID ∧
    crc32 (strBytes nodePlum.ID) = crc32 (strBytes nodeBuck.ID) ∧
    (alookup cacheCollide.nodeHB "buckeroo").isSome ∧
    ¬ "buckeroo" ∈ memberIDs cacheCollide := by decide

/-- C2 (amended): after any sequence of `addNode` and
`removeNode_unlocked` operations from the empty cache whose mentioned IDs
are CRC-32-collision-free, the key set of the heartbeat registry equals
the set of IDs of the nodes stored in the ring. -/
theorem C2_registry_matches_ring (ops : List CacheOp) (red : Nat)
    (hgood : goodIDs (ops.map CacheOp.opID)) :
    ∀ id, (alookup (applyCacheOps ops
        (newDistributedCache red)).nodeHB id).isSome ↔
      id ∈ memberIDs (applyCacheOps ops (newDistributedCache red)) := by
  have hkeys : (newDistributedCache red).nodeHB.map Prod.fst = [] := rfl
  have hwf := cacheWF_applyOps ops (newDistributedCache red)
    (cacheWF_new red) (by rw [hkeys, List.nil_append]; exact hgood)
  intro id
  constructor
  · intro hs
    exact mem_members_of_mem_keys hwf ((alookup_isSome_iff _ _).mp hs)
  · intro hm
    exact (alookup_isSome_iff _ _).mpr (mem_keys_of_mem_members hwf hm)

set_option maxRecDepth 1000000 in
theorem C2_registry_matches_ring_witness :
    (alookup (applyCacheOps
        [CacheOp.add nodeA 100, CacheOp.add nodeB 200,
          CacheOp.remove "node1"]
        (newDistributedCache 1)).nodeHB "node2").isSome ↔
      "node2" ∈ memberIDs (applyCacheOps
        [CacheOp.add nodeA 100, CacheOp.add nodeB 200,
          CacheOp.remove "node1"] (newDistributedCache 1)) :=
  C2_registry_matches_ring
    [CacheOp.add nodeA 100, CacheOp.add nodeB 200,
      CacheOp.remove "node1"] 1 (by decide) "node2"

/-- C5: every SET call passes the i-th attempted replica (0-based) a
replica-rank argument of `i − 1`: the primary receives −1, the first
redundant peer 0, and the attempts walk the replica list in order. -/
theorem C5_set_rank_assignment (c : distributedCache)
    (resp : nodeInfo → Int → SetResp) (key : String)
    (l : List (Option nodeInfo))
    (h : c.ring.getNodes key c.redundancy = some l) :
    ∃ tr res, c.set resp key = some (tr, res) ∧
      ∀ i (hi : i < tr.length), tr.get ⟨i, hi⟩ =
        ((l.filterMap id).getD i ⟨"", "", "", ""⟩, (i : Int) - 1) := by
  refine ⟨(setLoop resp (l.filterMap id) 0).1,
    (setLoop resp (l.filterMap id) 0).2, ?_, ?_⟩
  · simp only [distributedCache.set, h]
  · intro i hi
    rw [setLoop_get resp ⟨"", "", "", ""⟩ (l.filterMap id) 0 i hi]
    congr 1
    push_cast
    omega

set_option maxRecDepth 1000000 in
theorem C5_set_rank_assignment_witness :
    ∃ tr res, cacheAB.set respFirstDown "key1" = some (tr, res) ∧
      ∀ i (hi : i < tr.length), tr.get ⟨i, hi⟩ =
        (([some nodeA, some nodeB].filterMap id).getD i ⟨"", "", "", ""⟩,
          (i : Int) - 1) :=
  C5_set_rank_assignment cacheAB respFirstDown "key1"
    [some nodeA, some nodeB] (by decide)

set_option maxRecDepth 1000000 in
/-- C6: counterexample. With two replicas in the ring, a delivered
response carrying the non-success code 500 at the first attempt stops
the dispatcher with success after a single attempt — it does not advance
to the next replica as the claim states. -/
theorem C6_status_code_counterexample :
    cacheAB.ring.getNodes "key1" cacheAB.redundancy =
      some [some nodeA, some nodeB] ∧
    respCode500 nodeA (-1) = SetResp.ok 500 ∧ ¬ (500 = 200) ∧
    cacheAB.set respCode500 "key1" = some ([(nodeA, -1)], true) := by
  decide

/-- C6 (amended): during a SET, only a transport error is treated as a
failure that advances the dispatcher to the next replica; a delivered
response stops it with success whatever its HTTP status code, which
`setToNode` never inspects. -/
theorem C6_set_advance_on_transport_only (c : distributedCache)
    (resp : nodeInfo → Int → SetResp) (key : String)
    (l : List (Option nodeInfo))
    (h : c.ring.getNodes key c.redundancy = some l) :
    ∃ tr res, c.set resp key = some (tr, res) ∧
      (∀ i (hi : i + 1 < tr.length),
        resp (tr.get ⟨i, Nat.lt_of_succ_lt hi⟩).1
          (tr.get ⟨i, Nat.lt_of_succ_lt hi⟩).2 = SetResp.transportErr) ∧
      (res = true ↔
        ∀ a ∈ tr.getLast?, ∃ code, resp a.1 a.2 = SetResp.ok code) := by
  refine ⟨(setLoop resp (l.filterMap id) 0).1,
    (setLoop resp (l.filterMap id) 0).2, ?_, ?_, ?_⟩
  · simp only [distributedCache.set, h]
  · exact fun i hi => setLoop_advance resp (l.filterMap id) 0 i hi
  · exact setLoop_result resp (l.filterMap id) 0

set_option maxRecDepth 1000000 in
theorem C6_set_advance_on_transport_only_witness :
    ∃ tr res, cacheAB.set respCode500 "key1" = some (tr, res) ∧
      (∀ i (hi : i + 1 < tr.length),
        respCode500 (tr.get ⟨i, Nat.lt_of_succ_lt hi⟩).1
          (tr.get ⟨i, Nat.lt_of_succ_lt hi⟩).2 =
          SetResp.transportErr) ∧
      (res = true ↔
        ∀ a ∈ tr.getLast?, ∃ code,
          respCode500 a.1 a.2 = SetResp.ok code) :=
  C6_set_advance_on_transport_only cacheAB respCode500 "key1"
    [some nodeA, some nodeB] (by decide)

/-- C7: after one monitor sweep at instant `now` on a well-formed cache,
every peer other than the local node whose heartbeat is older than the
monitor interval is gone from both the registry map and the ring's node
list, and the local node's registry entry is untouched. -/
theorem C7_monitor_sweep (c : distributedCache) (myNodeID : String)
    (now : Nat) (hwf : cacheWF c) :
    (∀ id t, ¬ id = myNodeID → alookup c.nodeHB id = some t →
      t + monitorInterval < now →
      alookup (c.monitorSweep myNodeID now).nodeHB id = none ∧
      ∀ nd ∈ (c.monitorSweep myNodeID now).ring.nodes, ¬ nd.ID = id) ∧
    alookup (c.monitorSweep myNodeID now).nodeHB myNodeID =
      alookup c.nodeHB myNodeID := by
  constructor
  · intro id t hne hlk hstale
    have hmem : (id, t) ∈ c.nodeHB := alookup_mem hlk
    have hgood : ∀ p ∈ c.nodeHB, ∀ q ∈ c.nodeHB.map Prod.fst,
        crc32 (strBytes q) = crc32 (strBytes p.1) → q = p.1 :=
      fun p hp q hq hc =>
        hwf.2.2.2.2 q hq p.1 (List.mem_map_of_mem Prod.fst hp) hc
    exact sweepGo_removes myNodeID now c.nodeHB c id t hwf hgood hmem
      hne hstale
  · exact sweepGo_my myNodeID now c.nodeHB c

set_option maxRecDepth 1000000 in
theorem C7_monitor_sweep_witness :
    alookup (cacheAB.monitorSweep "node1" 20000000000).nodeHB "node2" =
      none ∧
    alookup (cacheAB.monitorSweep "node1" 20000000000).nodeHB "node1" =
      alookup cacheAB.nodeHB "node1" :=
  ⟨((C7_monitor_sweep cacheAB "node1" 20000000000 (by decide)).1 "node2"
      200 (by decide) (by decide) (by decide)).1,
    (C7_monitor_sweep cacheAB "node1" 20000000000 (by decide)).2⟩

/-- C8: REMOVE deletes the key from the store of the primary returned by
`getNode` only; the store of every other node is left exactly as it
was. -/
theorem C8_remove_primary_only (c : distributedCache)
    (stores : List (String × List (String × cacheData))) (key : String)
    (nd : nodeInfo) (h : c.ring.getNode key = some nd) :
    ∃ stores', c.remove stores key = some stores' ∧
      (∀ id, ¬ id = nd.ID → alookup stores' id = alookup stores id) ∧
      alookup stores' nd.ID =
        (alookup stores nd.ID).map (fun st => cacheNode.remove st key) := by
  refine ⟨stores.map (fun s => if s.1 == nd.ID then
    (s.1, cacheNode.remove s.2 key) else s), ?_, ?_, ?_⟩
  · simp only [distributedCache.remove, h]
  · exact fun id hid => remove_map_frame key nd.ID stores id hid
  · exact remove_map_primary key nd.ID stores

set_option maxRecDepth 1000000 in
theorem C8_remove_primary_only_witness :
    ∃ stores', cacheAB.remove storesAB "key1" = some stores' ∧
      (∀ id, ¬ id = nodeA.ID →
        alookup stores' id = alookup storesAB id) ∧
      alookup stores' nodeA.ID =
        (alookup storesAB nodeA.ID).map
          (fun st => cacheNode.remove st "key1") :=
  C8_remove_primary_only cacheAB storesAB "key1" nodeA (by decide)

end Claims
